import Mathlib

/-!
# The path lexer (`lexer.go`)

A shallow embedding of the `Lexer` of `lexer.go` and theorems about it.

Conventions of the embedding

* A Go `rune` held by the lexer is a Lean `Char`: `[]rune(input)` only ever
  yields Unicode scalar values, and `char` is `' '`, `0` or an element of
  `input`.  A Go `string` is a Lean `String` (its sequence of code points).
* `position` and `readPosition` are Go `int`s that start at `0` and are only
  ever assigned `readPosition` or incremented; they are natural numbers here.
  `line`, `column` and the fields of `Position` are integers.  Go's `int` is
  64 bits wide; the counters are not wrapped, a wrap needs `2^63` advances.
  The sum `readPosition + n` of `PeekN`, whose `n` the caller chooses, is
  wrapped (`wrapInt`).
* A method with a pointer receiver returns its result together with the
  lexer it leaves behind.
* A panic (an index or a slice out of range) is the result `none`.
* The two `for` loops advance while a condition on `char` holds; both are
  `advanceWhile`, run with a budget computed from the state.  The budget is
  shown to be enough (`run_unfold`, `run_exit`), so both are the loops of the
  source and both terminate.
-/

namespace Path

/-! ## Data model -/

/-- Modelled from the spec: the token type enumeration is owned by the grammar
module, which is not part of `lexer.go`.  The lexer names three of its members
(`EOF`, `IDENT`, `UNKNOWN`); every other member is `other n`. -/
inductive TokenType where
  | UNKNOWN : TokenType
  | EOF : TokenType
  | IDENT : TokenType
  | other : Nat → TokenType
  deriving DecidableEq, Repr

/-- Modelled from the spec: `Position` is `{ offset, line, column }`; the field
names are those `getPosition` writes. -/
structure Position where
  Offset : Int
  Line : Int
  Column : Int
  deriving DecidableEq, Repr

/-- Modelled from the spec: `Token` is `{ type, literal, position }`; the field
names are those `NextToken` and `readRunesToken` write; `Typ` is the
field `Type`, a reserved word here. -/
structure Token where
  Typ : TokenType
  Literal : String
  Pos : Position
  deriving DecidableEq, Repr

/-- The zero value of `Position`. -/
def Position.zero : Position := { Offset := 0, Line := 0, Column := 0 }

/-- The zero value of `Token`, what `var tok Token` declares.  The zero value
of the token type is not known from `lexer.go`; every path of the lexer
overwrites `Type` before the token is returned. -/
def Token.zero : Token := { Typ := TokenType.UNKNOWN, Literal := "", Pos := Position.zero }

/-- Modelled from the spec: `MakeToken`, the token constructor of the grammar
module, taking a type and a character: it produces a token of that type whose
literal is that single character. -/
def MakeToken (t : TokenType) (char : Char) : Token :=
  { Typ := t, Literal := String.singleton char, Pos := Position.zero }

/-- What `lexer.go` takes from outside: the classification table `tokenMap` of
the grammar module (`none` when the character is not a key), and the tables
`unicode.IsLetter` and `unicode.IsDigit` of Go's standard library. -/
structure Env where
  tokenMap : Char → Option TokenType
  unicodeIsLetter : Char → Bool
  unicodeIsDigit : Char → Bool

/-- The sentinel `0`. -/
def nul : Char := Char.ofNat 0

/-- Go's `unicode.IsSpace`: in Latin-1 the characters `\t \n \v \f \r`, space,
U+0085 and U+00A0; beyond it the `White_Space` property. -/
def isSpace (char : Char) : Bool :=
  let n := char.toNat
  if n ≤ 0xFF then
    n == 0x09 || n == 0x0A || n == 0x0B || n == 0x0C || n == 0x0D || n == 0x20
      || n == 0x85 || n == 0xA0
  else
    n == 0x1680 || (0x2000 ≤ n && n ≤ 0x200A) || n == 0x2028 || n == 0x2029
      || n == 0x202F || n == 0x205F || n == 0x3000

/-- The constant `utf8.RuneSelf`. -/
def runeSelf : Nat := 0x80

/-- The function `isLetter` of `lexer.go`. -/
def isLetter (env : Env) (char : Char) : Bool :=
  (decide ('a' ≤ char) && decide (char ≤ 'z')) || (decide ('A' ≤ char) && decide (char ≤ 'Z'))
    || char == '_' || (decide (runeSelf ≤ char.toNat) && env.unicodeIsLetter char)

/-- The function `isDigit` of `lexer.go`. -/
def isDigit (env : Env) (char : Char) : Bool :=
  (decide ('0' ≤ char) && decide (char ≤ '9'))
    || (decide (runeSelf ≤ char.toNat) && env.unicodeIsDigit char)

/-- The function `isQuote` of `lexer.go`. -/
def isQuote (char : Char) : Bool := char.toNat == 34

/-- The struct `Lexer`. -/
structure Lexer where
  input : List Char
  char : Char
  position : Nat
  readPosition : Nat
  line : Int
  column : Int
  deriving DecidableEq, Repr

/-- The function `NewLexer`. -/
def NewLexer (input : String) : Lexer :=
  { input := input.toList, char := ' ', position := 0, readPosition := 0, line := 1, column := 1 }

/-- The method `ReadNext`. -/
def ReadNext (l : Lexer) : Lexer :=
  if h : l.input.length ≤ l.readPosition then
    { l with char := nul, position := l.readPosition, readPosition := l.readPosition + 1 }
  else
    let c := l.input[l.readPosition]
    if c = '\n' then
      { l with char := c, column := 1, line := l.line + 1,
               position := l.readPosition, readPosition := l.readPosition + 1 }
    else
      { l with char := c, column := l.column + 1,
               position := l.readPosition, readPosition := l.readPosition + 1 }

/-- The largest value of Go's `int` (64 bits). -/
def maxInt : Int := 9223372036854775807

/-- The smallest value of Go's `int` (64 bits). -/
def minInt : Int := -9223372036854775808

/-- The value a Go `int` expression has when its mathematical value is `x`:
signed 64-bit arithmetic wraps around. -/
def wrapInt (x : Int) : Int :=
  (x + 9223372036854775808) % 18446744073709551616 - 9223372036854775808

/-- The method `PeekN`: `none` is the run-time panic of an index out of
range, which a negative value of the `int` expression `readPosition + n`
causes. -/
def PeekN (l : Lexer) (n : Int) : Option (Char × Lexer) :=
  let target := wrapInt ((l.readPosition : Int) + n)
  if (l.input.length : Int) ≤ target then some (nul, l)
  else if target < 0 then none
  else (l.input[target.toNat]?).map (fun c => (c, l))

/-- The method `Peek`. -/
def Peek (l : Lexer) : Option (Char × Lexer) := PeekN l 0

/-- The method `getPosition`. -/
def getPosition (l : Lexer) : Position :=
  { Offset := l.position, Line := l.line, Column := l.column }

/-- The loop `for cond(l.char) { l.ReadNext() }`, run at most `fuel` times. -/
def advanceWhile (cond : Char → Bool) : Nat → Lexer → Lexer
  | 0, l => l
  | fuel + 1, l => if cond l.char then advanceWhile cond fuel (ReadNext l) else l

/-- The number of advances after which `char` is certainly the sentinel. -/
def budget (l : Lexer) : Nat := l.input.length - l.readPosition + 1

/-- The loop `for cond(l.char) { l.ReadNext() }`. -/
def run (cond : Char → Bool) (l : Lexer) : Lexer := advanceWhile cond (budget l) l

/-- The method `skipWhitespace`. -/
def skipWhitespace (l : Lexer) : Lexer := run isSpace l

/-- The loop condition of `readIdentifier`. -/
def isIdentChar (env : Env) (char : Char) : Bool :=
  isLetter env char || isDigit env char || char == '-'

/-- The slice expression `input[lo:hi]` converted to a string.  Go panics
unless `lo ≤ hi ≤ cap(input)`; an index between the length and the capacity is
taken as out of range too. -/
def sliceString (input : List Char) (lo hi : Nat) : Option String :=
  if lo ≤ hi ∧ hi ≤ input.length then some (String.mk ((input.drop lo).take (hi - lo)))
  else none

/-- The method `readIdentifier`. -/
def readIdentifier (env : Env) (l : Lexer) : Option (String × Lexer) :=
  let position := l.position
  let l1 := run (isIdentChar env) l
  (sliceString l1.input position l1.position).map (fun s => (s, l1))

/-- The method `readRunesToken`. -/
def readRunesToken (env : Env) (l : Lexer) : Option (Token × Lexer) :=
  if l.char = nul then
    some ({ Token.zero with Literal := "", Typ := TokenType.EOF }, l)
  else if isLetter env l.char then
    (readIdentifier env l).map
      (fun r => ({ Token.zero with Literal := r.1, Typ := TokenType.IDENT }, r.2))
  else
    let l1 := ReadNext l
    some (MakeToken TokenType.UNKNOWN l1.char, l1)

/-- The method `NextToken`. -/
def NextToken (env : Env) (l : Lexer) : Option (Token × Lexer) :=
  let l1 := skipWhitespace l
  let pos := getPosition l1
  let pos := { pos with Column := pos.Column - 1 }
  match env.tokenMap l1.char with
  | some t =>
    let tok := MakeToken t l1.char
    let l2 := ReadNext l1
    some ({ tok with Pos := pos }, l2)
  | none =>
    (readRunesToken env l1).map (fun r => ({ r.1 with Pos := pos }, r.2))

/-- The lexer after `k` calls of `NextToken` on `NewLexer input`. -/
def lexerAfter (env : Env) (input : String) : Nat → Option Lexer
  | 0 => some (NewLexer input)
  | k + 1 => (lexerAfter env input k).bind (fun l => (NextToken env l).map Prod.snd)

/-- The token returned by call number `k` (counted from `0`) of `NextToken` on
`NewLexer input`. -/
def nthToken (env : Env) (input : String) (k : Nat) : Option Token :=
  (lexerAfter env input k).bind (fun l => (NextToken env l).map Prod.fst)

/-- The lexer states a caller can reach from the state `l0` with `ReadNext` and
`NextToken` (`Peek` and `PeekN` return the lexer they were given). -/
inductive ReachableFrom (env : Env) (l0 : Lexer) : Lexer → Prop where
  | start : ReachableFrom env l0 l0
  | readNext {l : Lexer} : ReachableFrom env l0 l → ReachableFrom env l0 (ReadNext l)
  | nextToken {l l1 : Lexer} {tok : Token} :
      ReachableFrom env l0 l → NextToken env l = some (tok, l1) → ReachableFrom env l0 l1

/-- The lexer states a caller can reach from `NewLexer input`. -/
def Reachable (env : Env) (input : String) (l : Lexer) : Prop :=
  ReachableFrom env (NewLexer input) l

/-- The character at the index `p` of `input` appears in no token literal: when
it occurs nowhere else in the input, no token of the stream has it in its
literal. -/
def SkippedInNoLiteral (env : Env) (input : String) (p : Nat) : Prop :=
  ∀ c, input.toList[p]? = some c → (∀ i, input.toList[i]? = some c → i = p) →
    ∀ j tok, nthToken env input j = some tok → c ∉ tok.Literal.toList

/-- A table and Unicode classes to evaluate the lexer on: the punctuation of a
path expression, and the letters `À`..`Ö` and the Arabic-Indic digits. -/
def sampleEnv : Env where
  tokenMap := fun c =>
    if c = '.' then some (TokenType.other 0)
    else if c = '[' then some (TokenType.other 1)
    else if c = ']' then some (TokenType.other 2)
    else none
  unicodeIsLetter := fun c => decide (0xC0 ≤ c.toNat ∧ c.toNat ≤ 0xD6)
  unicodeIsDigit := fun c => decide (0x660 ≤ c.toNat ∧ c.toNat ≤ 0x669)

/-- The column counter after the characters `xs` have been read one by one by
`ReadNext` from a fresh lexer. -/
def colAfter (xs : List Char) : Int :=
  xs.foldl (fun col c => if c = '\n' then 1 else col + 1) 1

/-- The number of line feeds in `xs`. -/
def lineFeeds (xs : List Char) : Int := (xs.count '\n' : Nat)

/-- The state `NewLexer input` is in after `n` calls of `ReadNext`, written out. -/
def stateAt (input : String) (n : Nat) : Lexer :=
  { input := input.toList
    char := if n = 0 then ' ' else (input.toList[n - 1]?).getD nul
    position := n - 1
    readPosition := n
    line := 1 + lineFeeds (input.toList.take n)
    column := colAfter (input.toList.take n) }

/-- The start position `NextToken` captures in the state `l` the whitespace
skip has left: `getPosition` with the column decremented. -/
def startPos (l : Lexer) : Position :=
  { Offset := l.position, Line := l.line, Column := l.column - 1 }

/-- A fact of Unicode about the table `unicode.IsLetter`: no letter (general
category L) is white space. -/
def LettersNotSpace (env : Env) : Prop :=
  ∀ c : Char, env.unicodeIsLetter c = true → isSpace c = false

/-- Idempotence at end of input, for one table and one input: once a call of
`NextToken` has returned a token `tok` of type `EOF`, every later call returns
`tok` again (type, literal and position), the literal of `tok` is `""`, and the
call leaves the lexer as it found it. -/
def EofIsFinal (env : Env) (input : String) : Prop :=
  ∀ k l tok l1, lexerAfter env input k = some l → NextToken env l = some (tok, l1) →
    tok.Typ = TokenType.EOF →
    ∀ j l2, k < j → lexerAfter env input j = some l2 →
      NextToken env l2 = some (tok, l2) ∧ tok.Literal = ""

/-- A table that maps a key to the type `EOF`, and has no key `0`. -/
def eofKeyEnv : Env where
  tokenMap := fun c => if c = '.' then some TokenType.EOF else none
  unicodeIsLetter := fun _ => false
  unicodeIsDigit := fun _ => false

/-- A run of lookahead calls `PeekN(n)`, one for each `n` of the list, each on
the lexer the call before has left. -/
def peekAll (l : Lexer) : List Int → Option Lexer
  | [] => some l
  | n :: ns => (PeekN l n).bind (fun r => peekAll r.2 ns)

/-- The cursor index at which the token of call number `k` starts: the value of
`position` after the whitespace skip of that call. -/
def tokenStart (env : Env) (input : String) (k : Nat) : Option Nat :=
  (lexerAfter env input k).map (fun l => (skipWhitespace l).position)

/-- A table in which a letter is a key. -/
def letterKeyEnv : Env where
  tokenMap := fun c => if c = 'x' then some (TokenType.other 3) else none
  unicodeIsLetter := fun _ => false
  unicodeIsDigit := fun _ => false

/-- A table that maps a key to the type `UNKNOWN`. -/
def unknownKeyEnv : Env where
  tokenMap := fun c => if c = '.' then some TokenType.UNKNOWN else none
  unicodeIsLetter := fun _ => false
  unicodeIsDigit := fun _ => false

/-- The character an `UNKNOWN` token reports is tokenized again, for one table and
one input: whenever a call returns a token of type `UNKNOWN` at `Pos.Offset = p`
and `input[p + 1]` exists and is no white space, the literal of the token is that
character, and the next call returns a token with `Pos.Offset = p + 1` whose
literal starts with it. -/
def UnknownCharTokenizedAgain (env : Env) (input : String) : Prop :=
  ∀ (k p : Nat) (tok : Token) (c : Char), nthToken env input k = some tok →
    tok.Typ = TokenType.UNKNOWN → tok.Pos.Offset = (p : Int) →
    input.toList[p + 1]? = some c → isSpace c = false →
    tok.Literal = String.singleton c
      ∧ ∃ tok2, nthToken env input (k + 1) = some tok2 ∧ tok2.Pos.Offset = (p : Int) + 1
          ∧ tok2.Literal.toList.head? = some c

/-! ## The advance operation -/

theorem ReadNext_input (l : Lexer) : (ReadNext l).input = l.input := by
  unfold ReadNext; split
  · rfl
  · simp only []; split <;> rfl

theorem ReadNext_position (l : Lexer) : (ReadNext l).position = l.readPosition := by
  unfold ReadNext; split
  · rfl
  · simp only []; split <;> rfl

theorem ReadNext_readPosition (l : Lexer) :
    (ReadNext l).readPosition = l.readPosition + 1 := by
  unfold ReadNext; split
  · rfl
  · simp only []; split <;> rfl

theorem ReadNext_char (l : Lexer) :
    (ReadNext l).char = (l.input[l.readPosition]?).getD nul := by
  unfold ReadNext; split
  · rename_i h; simp [List.getElem?_eq_none h]
  · rename_i h
    have h2 : l.readPosition < l.input.length := by omega
    simp only [List.getElem?_eq_getElem h2, Option.getD_some]; split <;> rfl

theorem ReadNext_char_end (l : Lexer) (h : l.input.length ≤ l.readPosition) :
    (ReadNext l).char = nul := by
  rw [ReadNext_char]; simp [List.getElem?_eq_none h]

/-! ## The loops -/

theorem isSpace_nul : isSpace nul = false := by decide

theorem isLetter_nul (env : Env) : isLetter env nul = false := by
  simp [isLetter, nul, runeSelf]

theorem isIdentChar_nul (env : Env) : isIdentChar env nul = false := by
  simp [isIdentChar, isLetter, isDigit, nul, runeSelf]

theorem advanceWhile_stop (cond : Char → Bool) (fuel : Nat) (l : Lexer)
    (h : cond l.char = false) : advanceWhile cond fuel l = l := by
  cases fuel <;> simp [advanceWhile, h]

theorem advanceWhile_succ (cond : Char → Bool) (fuel : Nat) (l : Lexer) :
    advanceWhile cond (fuel + 1) l
      = if cond l.char then advanceWhile cond fuel (ReadNext l) else l := rfl

/-- The budgeted loop satisfies the equation of the `for` loop. -/
theorem run_unfold (cond : Char → Bool) (hnul : cond nul = false) (l : Lexer) :
    run cond l = if cond l.char then run cond (ReadNext l) else l := by
  unfold run budget
  rw [ReadNext_input, ReadNext_readPosition, advanceWhile_succ]
  by_cases hc : cond l.char = true
  · simp only [hc, if_true]
    by_cases hlt : l.readPosition < l.input.length
    · have e : l.input.length - (l.readPosition + 1) + 1 = l.input.length - l.readPosition := by
        omega
      rw [e]
    · have hz : cond (ReadNext l).char = false := by
        rw [ReadNext_char_end l (by omega)]; exact hnul
      rw [advanceWhile_stop cond _ _ hz, advanceWhile_stop cond _ _ hz]
  · simp [hc]

/-- Induction along the iterations of the loop. -/
theorem run_induct (cond : Char → Bool) (hnul : cond nul = false) (M : Lexer → Prop)
    (stop : ∀ l, cond l.char = false → M l)
    (step : ∀ l, cond l.char = true → M (ReadNext l) → M l) : ∀ l, M l := by
  have key : ∀ n l, l.input.length - l.readPosition = n → M l := by
    intro n
    induction n with
    | zero =>
      intro l hn
      by_cases hc : cond l.char = true
      · apply step l hc
        apply stop
        rw [ReadNext_char_end l (by omega)]; exact hnul
      · exact stop l (by simpa using hc)
    | succ n ih =>
      intro l hn
      by_cases hc : cond l.char = true
      · apply step l hc
        apply ih
        rw [ReadNext_input, ReadNext_readPosition]; omega
      · exact stop l (by simpa using hc)
  intro l
  exact key _ l rfl

/-- The loop ends, and it ends on a character that fails the condition. -/
theorem run_exit (cond : Char → Bool) (hnul : cond nul = false) (l : Lexer) :
    cond (run cond l).char = false := by
  refine run_induct cond hnul (fun l => cond (run cond l).char = false) ?_ ?_ l
  · intro l h; rw [run_unfold cond hnul, h]; simpa using h
  · intro l h ih; rw [run_unfold cond hnul, h]; simpa using ih

theorem run_input (cond : Char → Bool) (hnul : cond nul = false) (l : Lexer) :
    (run cond l).input = l.input := by
  refine run_induct cond hnul (fun l => (run cond l).input = l.input) ?_ ?_ l
  · intro l h; rw [run_unfold cond hnul, h]; simp
  · intro l h ih; rw [run_unfold cond hnul, h]; simp only [if_true]
    rw [ih, ReadNext_input]

theorem run_stop (cond : Char → Bool) (hnul : cond nul = false) (l : Lexer)
    (h : cond l.char = false) : run cond l = l := by
  rw [run_unfold cond hnul, h]; simp

theorem run_step (cond : Char → Bool) (hnul : cond nul = false) (l : Lexer)
    (h : cond l.char = true) : run cond l = run cond (ReadNext l) := by
  rw [run_unfold cond hnul, h]; simp

/-! ## Reachable states -/

theorem run_iterate (cond : Char → Bool) (hnul : cond nul = false) (l : Lexer) :
    ∃ n, run cond l = ReadNext^[n] l := by
  refine run_induct cond hnul (fun l => ∃ n, run cond l = ReadNext^[n] l) ?_ ?_ l
  · intro l h; exact ⟨0, by rw [run_stop cond hnul l h]; rfl⟩
  · intro l h ih
    obtain ⟨n, hn⟩ := ih
    exact ⟨n + 1, by rw [run_step cond hnul l h, hn, Function.iterate_succ_apply]⟩

theorem colAfter_snoc (xs : List Char) (c : Char) :
    colAfter (xs ++ [c]) = if c = '\n' then 1 else colAfter xs + 1 := by
  simp [colAfter, List.foldl_append]

theorem lineFeeds_snoc (xs : List Char) (c : Char) :
    lineFeeds (xs ++ [c]) = if c = '\n' then lineFeeds xs + 1 else lineFeeds xs := by
  unfold lineFeeds
  by_cases h : c = '\n'
  · subst h; simp
  · have h2 : ¬ ('\n' = c) := fun e => h e.symm
    simp [h, List.count_cons, h2]

theorem ReadNext_stateAt (input : String) (n : Nat) :
    ReadNext (stateAt input n) = stateAt input (n + 1) := by
  by_cases hlt : n < input.toList.length
  · have htk : input.toList.take (n + 1) = input.toList.take n ++ [input.toList[n]] := by
      rw [List.take_succ, List.getElem?_eq_getElem hlt]; rfl
    have hnot : ¬ (stateAt input n).input.length ≤ (stateAt input n).readPosition := by
      simp [stateAt]; exact hlt
    unfold ReadNext
    rw [dif_neg hnot]
    simp only [stateAt, htk, colAfter_snoc, lineFeeds_snoc, Nat.add_sub_cancel,
      List.getElem?_eq_getElem hlt, Option.getD_some, Nat.succ_ne_zero, if_false]
    split
    · simp_all; omega
    · simp_all
  · have hge : input.toList.length ≤ n := by omega
    have htk : input.toList.take (n + 1) = input.toList.take n := by
      rw [List.take_of_length_le hge, List.take_of_length_le (by omega)]
    have hle : (stateAt input n).input.length ≤ (stateAt input n).readPosition := by
      simp [stateAt]; exact hge
    have hnone : input.toList[n]? = none := List.getElem?_eq_none hge
    unfold ReadNext
    rw [dif_pos hle]
    simp only [stateAt, htk, hnone, Nat.add_sub_cancel, Nat.succ_ne_zero, if_false,
      Option.getD_none]

/-- After `n` advances a fresh lexer is in the state `stateAt input n`. -/
theorem iterate_NewLexer (input : String) (n : Nat) :
    ReadNext^[n] (NewLexer input) = stateAt input n := by
  induction n with
  | zero => simp [stateAt, NewLexer, colAfter, lineFeeds]
  | succ n ih => rw [Function.iterate_succ_apply', ih, ReadNext_stateAt]

theorem stateAt_zero (input : String) : stateAt input 0 = NewLexer input := by
  simp [stateAt, NewLexer, colAfter, lineFeeds]

theorem stateAt_char_end (input : String) (n : Nat) (h : input.toList.length + 1 ≤ n) :
    (stateAt input n).char = nul := by
  have h0 : n ≠ 0 := by omega
  have hnone : input.toList[n - 1]? = none := List.getElem?_eq_none (by omega)
  simp only [stateAt, h0, if_false, hnone, Option.getD_none]

theorem stateAt_char (input : String) (n : Nat) (h : n < input.toList.length) :
    (stateAt input (n + 1)).char = input.toList[n] := by
  simp only [stateAt, Nat.succ_ne_zero, if_false, Nat.add_sub_cancel,
    List.getElem?_eq_getElem h, Option.getD_some]

/-- A loop started in `stateAt input n` ends in some `stateAt input q`: the
first state from `n` on whose character fails the condition. -/
theorem run_stateAt (cond : Char → Bool) (hnul : cond nul = false) (input : String) (n : Nat) :
    ∃ q, run cond (stateAt input n) = stateAt input q ∧ n ≤ q
      ∧ q ≤ max n (input.toList.length + 1)
      ∧ cond (stateAt input q).char = false
      ∧ ∀ i, n ≤ i → i < q → cond (stateAt input i).char = true := by
  have key : ∀ k n, input.toList.length + 1 - n = k →
      ∃ q, run cond (stateAt input n) = stateAt input q ∧ n ≤ q
        ∧ q ≤ max n (input.toList.length + 1)
        ∧ cond (stateAt input q).char = false
        ∧ ∀ i, n ≤ i → i < q → cond (stateAt input i).char = true := by
    intro k
    induction k with
    | zero =>
      intro n hk
      have hc : cond (stateAt input n).char = false := by
        rw [stateAt_char_end input n (by omega)]; exact hnul
      exact ⟨n, run_stop cond hnul _ hc, le_refl _, le_max_left _ _, hc,
        fun i h1 h2 => absurd h2 (by omega)⟩
    | succ k ih =>
      intro n hk
      by_cases hc : cond (stateAt input n).char = true
      · obtain ⟨q, h1, h2, h3, h4, h5⟩ := ih (n + 1) (by omega)
        refine ⟨q, ?_, by omega, ?_, h4, ?_⟩
        · rw [run_step cond hnul _ hc, ReadNext_stateAt]; exact h1
        · have e1 : max (n + 1) (input.toList.length + 1) = input.toList.length + 1 :=
            max_eq_right (by omega)
          have e2 : max n (input.toList.length + 1) = input.toList.length + 1 :=
            max_eq_right (by omega)
          omega
        · intro i hi1 hi2
          by_cases hin : i = n
          · subst hin; exact hc
          · exact h5 i (by omega) hi2
      · have hc2 : cond (stateAt input n).char = false := by simpa using hc
        exact ⟨n, run_stop cond hnul _ hc2, le_refl _, le_max_left _ _, hc2,
          fun i h1 h2 => absurd h2 (by omega)⟩
  exact key _ n rfl

/-- The whitespace skip from `stateAt input n` ends in a state `stateAt input m`
that has read at least one character. -/
theorem skip_stateAt (input : String) (n : Nat) :
    ∃ m, skipWhitespace (stateAt input n) = stateAt input m ∧ n ≤ m ∧ 1 ≤ m
      ∧ m ≤ max n (input.toList.length + 1)
      ∧ isSpace (stateAt input m).char = false
      ∧ ∀ i, n ≤ i → i < m → isSpace (stateAt input i).char = true := by
  obtain ⟨m, h1, h2, h3, h4, h5⟩ := run_stateAt isSpace isSpace_nul input n
  refine ⟨m, h1, h2, ?_, h3, h4, h5⟩
  by_contra h0
  have hm : m = 0 := by omega
  subst hm
  have : isSpace (stateAt input 0).char = true := by simp [stateAt]; decide
  rw [this] at h4; exact absurd h4 (by decide)

/-! ## The four paths of `NextToken` -/

theorem NextToken_key (env : Env) (l : Lexer) (t : TokenType)
    (h : env.tokenMap (skipWhitespace l).char = some t) :
    NextToken env l
      = some ({ Typ := t, Literal := String.singleton (skipWhitespace l).char,
                Pos := startPos (skipWhitespace l) }, ReadNext (skipWhitespace l)) := by
  simp [NextToken, h, MakeToken, startPos, getPosition]

theorem NextToken_eof (env : Env) (l : Lexer)
    (h : env.tokenMap (skipWhitespace l).char = none) (hc : (skipWhitespace l).char = nul) :
    NextToken env l
      = some ({ Typ := TokenType.EOF, Literal := "", Pos := startPos (skipWhitespace l) },
              skipWhitespace l) := by
  have h2 : env.tokenMap nul = none := by rw [← hc]; exact h
  simp [NextToken, h2, readRunesToken, hc, startPos, getPosition]

theorem NextToken_unknown (env : Env) (l : Lexer)
    (h : env.tokenMap (skipWhitespace l).char = none) (hc : (skipWhitespace l).char ≠ nul)
    (hl : isLetter env (skipWhitespace l).char = false) :
    NextToken env l
      = some ({ Typ := TokenType.UNKNOWN,
                Literal := String.singleton (ReadNext (skipWhitespace l)).char,
                Pos := startPos (skipWhitespace l) }, ReadNext (skipWhitespace l)) := by
  simp [NextToken, h, readRunesToken, hc, hl, MakeToken, startPos, getPosition]

theorem NextToken_ident (env : Env) (l : Lexer)
    (h : env.tokenMap (skipWhitespace l).char = none) (hc : (skipWhitespace l).char ≠ nul)
    (hl : isLetter env (skipWhitespace l).char = true) :
    NextToken env l
      = (readIdentifier env (skipWhitespace l)).map (fun r =>
          ({ Typ := TokenType.IDENT, Literal := r.1, Pos := startPos (skipWhitespace l) }, r.2)) := by
  simp only [NextToken, h, readRunesToken, hc, hl, if_true, if_false, Option.map_map]
  cases readIdentifier env (skipWhitespace l) <;> simp [startPos, getPosition, Token.zero]

theorem isIdentChar_of_isLetter (env : Env) (c : Char) (h : isLetter env c = true) :
    isIdentChar env c = true := by
  simp [isIdentChar, h]

/-- The method `readIdentifier`, entered on a letter in `stateAt input m`, returns
the slice up to the first state whose character is no letter, digit or hyphen. -/
theorem readIdentifier_stateAt (env : Env) (input : String) (m : Nat) (hm : 1 ≤ m)
    (hl : isLetter env (stateAt input m).char = true) :
    ∃ q, readIdentifier env (stateAt input m)
        = some (String.mk ((input.toList.drop (m - 1)).take (q - m)), stateAt input q)
      ∧ m < q ∧ q ≤ input.toList.length + 1
      ∧ isIdentChar env (stateAt input q).char = false
      ∧ ∀ i, m ≤ i → i < q → isIdentChar env (stateAt input i).char = true := by
  have hmle : m ≤ input.toList.length := by
    by_contra hgt
    rw [stateAt_char_end input m (by omega), isLetter_nul] at hl
    exact absurd hl (by decide)
  obtain ⟨q, h1, h2, h3, h4, h5⟩ := run_stateAt (isIdentChar env) (isIdentChar_nul env) input m
  have hq : q ≤ input.toList.length + 1 := by
    have e : max m (input.toList.length + 1) = input.toList.length + 1 :=
      max_eq_right (by omega)
    omega
  have hne : q ≠ m := by
    intro e
    rw [e, isIdentChar_of_isLetter env _ hl] at h4
    exact absurd h4 (by decide)
  refine ⟨q, ?_, by omega, hq, h4, h5⟩
  have hin : (stateAt input q).input = input.toList := rfl
  have hpos : (stateAt input q).position = q - 1 := rfl
  have hpos0 : (stateAt input m).position = m - 1 := rfl
  have hcond : m - 1 ≤ q - 1 ∧ q - 1 ≤ input.toList.length := by omega
  have hsub : q - 1 - (m - 1) = q - m := by omega
  simp only [readIdentifier, h1, hin, hpos, hpos0, sliceString, hcond, and_self, if_true,
    Option.map_some', hsub]

/-- On every state `stateAt input n`, `NextToken` returns, and leaves the lexer in
a state `stateAt input q` with `n ≤ q`. -/
theorem NextToken_stateAt (env : Env) (input : String) (n : Nat) :
    ∃ tok q, NextToken env (stateAt input n) = some (tok, stateAt input q) ∧ n ≤ q := by
  obtain ⟨m, h1, h2, h3, _, _, _⟩ := skip_stateAt input n
  cases hk : env.tokenMap (skipWhitespace (stateAt input n)).char with
  | some t =>
    have e := NextToken_key env _ t hk
    rw [h1, ReadNext_stateAt] at e
    exact ⟨_, _, e, by omega⟩
  | none =>
    by_cases hc : (skipWhitespace (stateAt input n)).char = nul
    · have e := NextToken_eof env _ hk hc
      rw [h1] at e
      exact ⟨_, _, e, h2⟩
    · by_cases hl : isLetter env (skipWhitespace (stateAt input n)).char = true
      · have hl2 := hl
        rw [h1] at hl2
        obtain ⟨q, e, hq, _⟩ := readIdentifier_stateAt env input m h3 hl2
        have e2 := NextToken_ident env _ hk hc hl
        rw [h1, e] at e2
        exact ⟨_, _, e2, by omega⟩
      · have e := NextToken_unknown env _ hk hc (by simpa using hl)
        rw [h1, ReadNext_stateAt] at e
        exact ⟨_, _, e, by omega⟩

/-- Every state reachable from `stateAt input n` is a state `stateAt input q`
with `n ≤ q`. -/
theorem ReachableFrom_stateAt (env : Env) (input : String) (n : Nat) (l : Lexer)
    (h : ReachableFrom env (stateAt input n) l) : ∃ q, l = stateAt input q ∧ n ≤ q := by
  induction h with
  | start => exact ⟨n, rfl, le_refl _⟩
  | readNext _ ih =>
    obtain ⟨q, rfl, hq⟩ := ih
    exact ⟨q + 1, ReadNext_stateAt input q, by omega⟩
  | nextToken _ hn ih =>
    obtain ⟨q, rfl, hq⟩ := ih
    obtain ⟨tok, q2, e, hq2⟩ := NextToken_stateAt env input q
    rw [e] at hn
    exact ⟨q2, by cases hn; rfl, by omega⟩

/-- Every reachable state is a state `stateAt input n`. -/
theorem Reachable_stateAt (env : Env) (input : String) (l : Lexer)
    (h : Reachable env input l) : ∃ n, l = stateAt input n := by
  unfold Reachable at h
  rw [← stateAt_zero] at h
  obtain ⟨q, hq, _⟩ := ReachableFrom_stateAt env input 0 l h
  exact ⟨q, hq⟩

/-- The lexer after `k` calls of `NextToken` exists and is a state `stateAt input n`. -/
theorem lexerAfter_stateAt (env : Env) (input : String) (k : Nat) :
    ∃ n, lexerAfter env input k = some (stateAt input n) := by
  induction k with
  | zero => exact ⟨0, by rw [stateAt_zero]; rfl⟩
  | succ k ih =>
    obtain ⟨n, hn⟩ := ih
    obtain ⟨tok, q, e, _⟩ := NextToken_stateAt env input n
    exact ⟨q, by simp [lexerAfter, hn, e]⟩

theorem lexerAfter_reachable (env : Env) (input : String) (k : Nat) (l : Lexer)
    (h : lexerAfter env input k = some l) : Reachable env input l := by
  induction k generalizing l with
  | zero =>
    simp only [lexerAfter, Option.some.injEq] at h
    subst h; exact ReachableFrom.start
  | succ k ih =>
    simp only [lexerAfter] at h
    cases h1 : lexerAfter env input k with
    | none => rw [h1] at h; simp at h
    | some l0 =>
      rw [h1] at h
      simp only [Option.some_bind] at h
      cases h2 : NextToken env l0 with
      | none => rw [h2] at h; simp at h
      | some r =>
        rw [h2] at h
        simp only [Option.map_some', Option.some.injEq] at h
        subst h
        exact ReachableFrom.nextToken (ih l0 h1) h2

/-! ## Whole inputs -/

theorem stateAt_char_mem (input : String) (n : Nat) (h1 : 1 ≤ n)
    (h2 : n ≤ input.toList.length) : (stateAt input n).char ∈ input.toList := by
  obtain ⟨k, rfl⟩ : ∃ k, n = k + 1 := ⟨n - 1, by omega⟩
  rw [stateAt_char input k (by omega)]
  exact List.getElem_mem _

/-- C1: on an input made of Unicode white space only (the empty input included),
with `0` not a key of `tokenMap`, the first `NextToken` on `NewLexer input`
returns a token of type `EOF` with the literal `""`. -/
theorem whitespace_only_first_token_eof (env : Env) (input : String)
    (hws : ∀ c ∈ input.toList, isSpace c = true) (h0 : env.tokenMap nul = none) :
    ∃ tok l, NextToken env (NewLexer input) = some (tok, l)
      ∧ tok.Typ = TokenType.EOF ∧ tok.Literal = "" := by
  obtain ⟨m, h1, _, h3, h4, h5, _⟩ := skip_stateAt input 0
  have hm : m = input.toList.length + 1 := by
    by_contra hne
    have hle : m ≤ input.toList.length := by
      have e : max 0 (input.toList.length + 1) = input.toList.length + 1 :=
        max_eq_right (by omega)
      omega
    rw [hws _ (stateAt_char_mem input m h3 hle)] at h5
    exact absurd h5 (by decide)
  have hc : (skipWhitespace (stateAt input 0)).char = nul := by
    rw [h1]; exact stateAt_char_end input m (by omega)
  have hk : env.tokenMap (skipWhitespace (stateAt input 0)).char = none := by
    rw [hc]; exact h0
  rw [← stateAt_zero]
  exact ⟨_, _, NextToken_eof env _ hk hc, rfl, rfl⟩

theorem whitespace_only_first_token_eof_witness :
    (∀ c ∈ " \n\t ".toList, isSpace c = true) ∧ sampleEnv.tokenMap nul = none
      ∧ ∃ tok l, NextToken sampleEnv (NewLexer " \n\t ") = some (tok, l)
          ∧ tok.Typ = TokenType.EOF ∧ tok.Literal = "" :=
  ⟨by decide, by decide,
    whitespace_only_first_token_eof sampleEnv " \n\t " (by decide) (by decide)⟩

theorem nthToken_zero (env : Env) (input : String) :
    nthToken env input 0 = (NextToken env (NewLexer input)).map Prod.fst := rfl

theorem nthToken_of_lexerAfter (env : Env) (input : String) (k : Nat) (l : Lexer)
    (h : lexerAfter env input k = some l) :
    nthToken env input k = (NextToken env l).map Prod.fst := by
  simp [nthToken, h]

theorem lexerAfter_succ_of (env : Env) (input : String) (k : Nat) (l l1 : Lexer) (tok : Token)
    (h : lexerAfter env input k = some l) (hn : NextToken env l = some (tok, l1)) :
    lexerAfter env input (k + 1) = some l1 := by
  simp [lexerAfter, h, hn]

theorem isLetter_not_space (env : Env) (hu : LettersNotSpace env) (c : Char)
    (h : isLetter env c = true) : isSpace c = false := by
  by_cases hbig : runeSelf ≤ c.toNat
  · have hl : env.unicodeIsLetter c = true := by
      have hz : ¬ c ≤ 'z' := by
        intro hle
        have : c.toNat ≤ 'z'.toNat := hle
        have e : 'z'.toNat = 122 := by decide
        unfold runeSelf at hbig; omega
      have hZ : ¬ c ≤ 'Z' := by
        intro hle
        have : c.toNat ≤ 'Z'.toNat := hle
        have e : 'Z'.toNat = 90 := by decide
        unfold runeSelf at hbig; omega
      have hu : ¬ c = '_' := by
        intro e; subst e; unfold runeSelf at hbig
        have e : '_'.toNat = 95 := by decide
        omega
      simpa [isLetter, hz, hZ, hu, hbig] using h
    exact hu c hl
  · have hsmall : c.toNat < 128 := by unfold runeSelf at hbig; omega
    have h2 : ((decide ('a' ≤ c) && decide (c ≤ 'z')) || (decide ('A' ≤ c) && decide (c ≤ 'Z'))
        || c == '_') = true := by
      simpa [isLetter, hbig] using h
    have ha : ('a' ≤ c) = ('a'.toNat ≤ c.toNat) := rfl
    have hz : (c ≤ 'z') = (c.toNat ≤ 'z'.toNat) := rfl
    have hA : ('A' ≤ c) = ('A'.toNat ≤ c.toNat) := rfl
    have hZ : (c ≤ 'Z') = (c.toNat ≤ 'Z'.toNat) := rfl
    have e1 : 'a'.toNat = 97 := by decide
    have e2 : 'z'.toNat = 122 := by decide
    have e3 : 'A'.toNat = 65 := by decide
    have e4 : 'Z'.toNat = 90 := by decide
    have hrange : (97 ≤ c.toNat ∧ c.toNat ≤ 122) ∨ (65 ≤ c.toNat ∧ c.toNat ≤ 90)
        ∨ c.toNat = 95 := by
      simp only [Bool.or_eq_true, Bool.and_eq_true, decide_eq_true_eq, beq_iff_eq,
        ha, hz, hA, hZ, e1, e2, e3, e4] at h2
      rcases h2 with (h2 | h2) | h2
      · exact Or.inl h2
      · exact Or.inr (Or.inl h2)
      · subst h2; exact Or.inr (Or.inr (by decide))
    have hle : c.toNat ≤ 0xFF := by omega
    simp only [isSpace, hle, if_true]
    simp only [Bool.or_eq_false_iff, beq_eq_false_iff_ne, ne_eq]
    omega

theorem stateAt_char_getD (input : String) (n : Nat) :
    (stateAt input (n + 1)).char = (input.toList[n]?).getD nul := by
  simp only [stateAt, Nat.succ_ne_zero, if_false, Nat.add_sub_cancel]

/-- C2: on an input that is one letter (not a key of `tokenMap`) followed by
letters, digits and hyphens, with `0` not a key of `tokenMap`, the first
`NextToken` returns `IDENT` with the whole input as literal and the second
returns `EOF` with the literal `""`. -/
theorem identifier_input_ident_then_eof (env : Env) (hu : LettersNotSpace env)
    (input : String) (c : Char) (rest : List Char) (hin : input.toList = c :: rest)
    (hc : isLetter env c = true) (hk : env.tokenMap c = none)
    (hrest : ∀ d ∈ rest, isLetter env d = true ∨ isDigit env d = true ∨ d = '-')
    (h0 : env.tokenMap nul = none) :
    (nthToken env input 0).map (fun t => (t.Typ, t.Literal)) = some (TokenType.IDENT, input)
      ∧ (nthToken env input 1).map (fun t => (t.Typ, t.Literal)) = some (TokenType.EOF, "") := by
  have hlen : input.toList.length = rest.length + 1 := by rw [hin]; rfl
  have hc1 : (stateAt input 1).char = c := by
    rw [stateAt_char_getD, hin]; simp
  -- the whitespace skip stops on the first character
  obtain ⟨m, h1, _, h3, _, _, h6⟩ := skip_stateAt input 0
  have hm : m = 1 := by
    by_contra hne
    have hsp := h6 1 (by omega) (by omega)
    rw [hc1, isLetter_not_space env hu c hc] at hsp
    exact absurd hsp (by decide)
  subst hm
  have hcn : c ≠ nul := by
    intro e; rw [e, isLetter_nul] at hc; exact absurd hc (by decide)
  -- the identifier loop runs to the end of the input
  obtain ⟨q, e, hq1, hq2, hq3, _⟩ :=
    readIdentifier_stateAt env input 1 (le_refl 1) (by rw [hc1]; exact hc)
  have hq : q = input.toList.length + 1 := by
    by_contra hne
    obtain ⟨j, rfl⟩ : ∃ j, q = j + 2 := ⟨q - 2, by omega⟩
    have hj : j < rest.length := by omega
    have hch : (stateAt input (j + 1 + 1)).char = rest[j] := by
      rw [stateAt_char_getD, hin, List.getElem?_cons_succ, List.getElem?_eq_getElem hj]; rfl
    have hid : isIdentChar env rest[j] = true := by
      rcases hrest _ (List.getElem_mem hj) with h | h | h
      · simp [isIdentChar, h]
      · simp [isIdentChar, h]
      · simp [isIdentChar, h]
    rw [hch, hid] at hq3
    exact absurd hq3 (by decide)
  subst hq
  have hlit : String.mk ((input.toList.drop (1 - 1)).take (input.toList.length + 1 - 1))
      = input := by
    rw [Nat.sub_self, List.drop_zero, Nat.add_sub_cancel, List.take_length]
    rfl
  rw [hlit] at e
  have hs : skipWhitespace (NewLexer input) = stateAt input 1 := by
    rw [← stateAt_zero]; exact h1
  have hn0 := NextToken_ident env (NewLexer input) (by rw [hs, hc1]; exact hk)
    (by rw [hs, hc1]; exact hcn) (by rw [hs, hc1]; exact hc)
  rw [hs, e] at hn0
  simp only [Option.map_some'] at hn0
  -- the second call finds the sentinel
  have hend : (stateAt input (input.toList.length + 1)).char = nul :=
    stateAt_char_end input _ (le_refl _)
  have hs2 : skipWhitespace (stateAt input (input.toList.length + 1))
      = stateAt input (input.toList.length + 1) :=
    run_stop isSpace isSpace_nul _ (by rw [hend]; exact isSpace_nul)
  have hn1 := NextToken_eof env (stateAt input (input.toList.length + 1))
    (by rw [hs2, hend]; exact h0) (by rw [hs2, hend])
  have hl1 := lexerAfter_succ_of env input 0 _ _ _ rfl hn0
  constructor
  · rw [nthToken_zero, hn0]; rfl
  · rw [nthToken_of_lexerAfter env input 1 _ hl1, hn1]; rfl

theorem sampleEnv_lettersNotSpace : LettersNotSpace sampleEnv := by
  intro c h
  have h2 : 0xC0 ≤ c.toNat ∧ c.toNat ≤ 0xD6 := by simpa [sampleEnv] using h
  have hle : c.toNat ≤ 0xFF := by omega
  simp only [isSpace, hle, if_true]
  simp only [Bool.or_eq_false_iff, beq_eq_false_iff_ne, ne_eq]
  omega

theorem identifier_input_ident_then_eof_witness :
    ((nthToken sampleEnv "abc" 0).map (fun t => (t.Typ, t.Literal))
        = some (TokenType.IDENT, "abc")
      ∧ (nthToken sampleEnv "abc" 1).map (fun t => (t.Typ, t.Literal))
        = some (TokenType.EOF, ""))
    ∧ ((nthToken sampleEnv "field-2" 0).map (fun t => (t.Typ, t.Literal))
        = some (TokenType.IDENT, "field-2")
      ∧ (nthToken sampleEnv "field-2" 1).map (fun t => (t.Typ, t.Literal))
        = some (TokenType.EOF, "")) :=
  ⟨identifier_input_ident_then_eof sampleEnv sampleEnv_lettersNotSpace "abc" 'a'
      ['b', 'c'] rfl (by decide) (by decide) (by decide) (by decide),
    identifier_input_ident_then_eof sampleEnv sampleEnv_lettersNotSpace "field-2" 'f'
      ['i', 'e', 'l', 'd', '-', '2'] rfl (by decide) (by decide) (by decide) (by decide)⟩

/-! ## End of input -/

/-- On the sentinel, with `0` not a key, `NextToken` returns `EOF` and leaves the
lexer as it is. -/
theorem NextToken_at_nul (env : Env) (h0 : env.tokenMap nul = none) (l : Lexer)
    (hc : l.char = nul) :
    NextToken env l = some ({ Typ := TokenType.EOF, Literal := "", Pos := startPos l }, l) := by
  have hs : skipWhitespace l = l := run_stop isSpace isSpace_nul l (by rw [hc]; exact isSpace_nul)
  have e := NextToken_eof env l (by rw [hs, hc]; exact h0) (by rw [hs, hc])
  rw [hs] at e
  exact e

/-- A token of type `EOF` comes from the end-of-input path when no key of the
table is mapped to `EOF`. -/
theorem NextToken_typ_eof (env : Env) (hE : ∀ c, env.tokenMap c ≠ some TokenType.EOF)
    (l : Lexer) (tok : Token) (l1 : Lexer) (h : NextToken env l = some (tok, l1))
    (ht : tok.Typ = TokenType.EOF) :
    l1.char = nul ∧ tok = { Typ := TokenType.EOF, Literal := "", Pos := startPos l1 } := by
  cases hk : env.tokenMap (skipWhitespace l).char with
  | some t =>
    rw [NextToken_key env l t hk] at h
    simp only [Option.some.injEq, Prod.mk.injEq] at h
    obtain ⟨h1, _⟩ := h
    subst h1
    simp only at ht
    subst ht
    exact absurd hk (hE _)
  | none =>
    by_cases hc : (skipWhitespace l).char = nul
    · rw [NextToken_eof env l hk hc] at h
      simp only [Option.some.injEq, Prod.mk.injEq] at h
      obtain ⟨h1, h2⟩ := h
      subst h1; subst h2
      exact ⟨hc, rfl⟩
    · by_cases hl : isLetter env (skipWhitespace l).char = true
      · rw [NextToken_ident env l hk hc hl] at h
        cases hr : readIdentifier env (skipWhitespace l) with
        | none => rw [hr] at h; simp at h
        | some r =>
          rw [hr] at h
          simp only [Option.map_some', Option.some.injEq, Prod.mk.injEq] at h
          obtain ⟨h1, _⟩ := h
          subst h1
          simp at ht
      · rw [NextToken_unknown env l hk hc (by simpa using hl)] at h
        simp only [Option.some.injEq, Prod.mk.injEq] at h
        obtain ⟨h1, _⟩ := h
        subst h1
        simp at ht

/-- C3 (amended): with `0` not a key of `tokenMap` and no key of `tokenMap`
mapped to `EOF`, once a call of `NextToken` on a lexer reached from
`NewLexer input` by `NextToken` calls has returned type `EOF`, every later call
returns the same token, with type `EOF` and literal `""` and the same position,
and leaves every field of the lexer unchanged. -/
theorem eof_is_final (env : Env) (input : String) (h0 : env.tokenMap nul = none)
    (hE : ∀ c, env.tokenMap c ≠ some TokenType.EOF) : EofIsFinal env input := by
  intro k l tok l1 hk hn ht
  obtain ⟨hc, htok⟩ := NextToken_typ_eof env hE l tok l1 hn ht
  have hfix : NextToken env l1 = some (tok, l1) := by
    rw [htok]; exact NextToken_at_nul env h0 l1 hc
  have hafter : ∀ d, lexerAfter env input (k + 1 + d) = some l1 := by
    intro d
    induction d with
    | zero => exact lexerAfter_succ_of env input k l l1 tok hk hn
    | succ d ih => exact lexerAfter_succ_of env input (k + 1 + d) l1 l1 tok ih hfix
  intro j l2 hj hl2
  obtain ⟨d, rfl⟩ : ∃ d, j = k + 1 + d := ⟨j - (k + 1), by omega⟩
  rw [hafter d] at hl2
  cases hl2
  exact ⟨hfix, by rw [htok]⟩

theorem eof_is_final_witness :
    sampleEnv.tokenMap nul = none ∧ (∀ c, sampleEnv.tokenMap c ≠ some TokenType.EOF)
      ∧ EofIsFinal sampleEnv "a.b" :=
  ⟨by decide, by intro c; simp only [sampleEnv]; split_ifs <;> simp,
    eof_is_final sampleEnv "a.b" (by decide)
      (by intro c; simp only [sampleEnv]; split_ifs <;> simp)⟩

/-- C3 as stated fails: `0` is not a key of the table `eofKeyEnv`, the first
`NextToken` on `".a"` returns type `EOF` (the table maps `.` to it), and the
second returns `IDENT "a"`. -/
theorem eof_is_final_counterexample :
    eofKeyEnv.tokenMap nul = none
      ∧ nthToken eofKeyEnv ".a" 0
          = some { Typ := TokenType.EOF, Literal := ".", Pos := ⟨0, 1, 1⟩ }
      ∧ nthToken eofKeyEnv ".a" 1
          = some { Typ := TokenType.IDENT, Literal := "a", Pos := ⟨1, 1, 2⟩ }
      ∧ ¬ EofIsFinal eofKeyEnv ".a" := by
  refine ⟨by decide, by decide, by decide, ?_⟩
  intro h
  have h1 := (h 0 (NewLexer ".a") { Typ := TokenType.EOF, Literal := ".", Pos := ⟨0, 1, 1⟩ }
    (stateAt ".a" 2) rfl (by decide) rfl 1 (stateAt ".a" 2) (by omega) (by decide)).2
  exact absurd h1 (by decide)

/-! ## Lookahead -/

theorem wrapInt_eq (x : Int) (h1 : minInt ≤ x) (h2 : x ≤ maxInt) : wrapInt x = x := by
  unfold wrapInt; unfold minInt at h1; unfold maxInt at h2; omega

theorem wrapInt_range (x : Int) : minInt ≤ wrapInt x ∧ wrapInt x ≤ maxInt := by
  unfold wrapInt minInt maxInt; omega

theorem PeekN_nonneg (l : Lexer) (n : Nat)
    (hmax : (l.readPosition : Int) + (n : Int) ≤ maxInt) :
    PeekN l (n : Int) = some ((l.input[l.readPosition + n]?).getD nul, l) := by
  unfold PeekN
  have hw : wrapInt ((l.readPosition : Int) + (n : Int)) = (l.readPosition : Int) + (n : Int) :=
    wrapInt_eq _ (by unfold minInt; omega) hmax
  simp only [hw]
  have e : ((l.readPosition : Int) + (n : Int)).toNat = l.readPosition + n := by omega
  by_cases h : l.input.length ≤ l.readPosition + n
  · have h1 : (l.input.length : Int) ≤ (l.readPosition : Int) + (n : Int) := by omega
    rw [if_pos h1, List.getElem?_eq_none h]; rfl
  · have h1 : ¬ (l.input.length : Int) ≤ (l.readPosition : Int) + (n : Int) := by omega
    have h2 : ¬ (l.readPosition : Int) + (n : Int) < 0 := by omega
    have h3 : l.readPosition + n < l.input.length := by omega
    rw [if_neg h1, if_neg h2, e, List.getElem?_eq_getElem h3]; rfl

/-- A lookahead call that returns, returns the lexer it was given. -/
theorem PeekN_same (l : Lexer) (n : Int) (c : Char) (l1 : Lexer)
    (h : PeekN l n = some (c, l1)) : l1 = l := by
  unfold PeekN at h
  simp only at h
  split at h
  · cases h; rfl
  · split at h
    · exact absurd h (by simp)
    · cases hx : l.input[(wrapInt ((l.readPosition : Int) + n)).toNat]? with
      | none => rw [hx] at h; exact absurd h (by simp)
      | some x => rw [hx] at h; cases h; rfl

theorem peekAll_same (l : Lexer) (ns : List Int) (l1 : Lexer)
    (h : peekAll l ns = some l1) : l1 = l := by
  induction ns generalizing l with
  | nil => cases h; rfl
  | cons i is ih =>
    simp only [peekAll] at h
    cases hp : PeekN l i with
    | none => rw [hp] at h; exact absurd h (by simp)
    | some r =>
      obtain ⟨c, l2⟩ := r
      rw [hp] at h
      simp only [Option.some_bind] at h
      have e := PeekN_same l i c l2 hp
      subst e
      exact ih _ h

/-- C4: `Peek` and `PeekN(n)` assign no field of the lexer: a lookahead call
that returns, returns the lexer (input, char, position, readPosition, line,
column) it was given, however many lookahead calls are made, so the next
`NextToken` returns what it would have returned without them; and for `n ≥ 0`
with `readPosition + n` in the range of `int` the calls do return. -/
theorem lookahead_read_only (env : Env) (l : Lexer) (n : Int) (ns : List Int)
    (hn : 0 ≤ n) (hmax : (l.readPosition : Int) + n ≤ maxInt)
    (hns : ∀ i ∈ ns, 0 ≤ i ∧ (l.readPosition : Int) + i ≤ maxInt) :
    (∀ i c l1, PeekN l i = some (c, l1) → l1 = l)
      ∧ (∀ c l1, Peek l = some (c, l1) → l1 = l)
      ∧ (∀ is l1, peekAll l is = some l1 → l1 = l ∧ NextToken env l1 = NextToken env l)
      ∧ (∃ c, Peek l = some (c, l)) ∧ (∃ c, PeekN l n = some (c, l))
      ∧ peekAll l ns = some l
      ∧ (peekAll l ns).bind (NextToken env) = NextToken env l := by
  have one : ∀ i : Int, 0 ≤ i → (l.readPosition : Int) + i ≤ maxInt →
      ∃ c, PeekN l i = some (c, l) := by
    intro i hi hm
    obtain ⟨k, rfl⟩ : ∃ k : Nat, i = (k : Int) := ⟨i.toNat, by omega⟩
    exact ⟨_, PeekN_nonneg l k hm⟩
  have all : peekAll l ns = some l := by
    induction ns with
    | nil => rfl
    | cons i is ih =>
      obtain ⟨c, hc⟩ := one i (hns i (List.mem_cons_self i is)).1
        (hns i (List.mem_cons_self i is)).2
      simp only [peekAll, hc, Option.some_bind]
      exact ih (fun j hj => hns j (List.mem_cons_of_mem i hj))
  refine ⟨fun i c l1 h => PeekN_same l i c l1 h, fun c l1 h => PeekN_same l 0 c l1 h, ?_,
    one 0 (le_refl 0) (by omega), one n hn hmax, all, by rw [all]; rfl⟩
  intro is l1 h
  have e := peekAll_same l is l1 h
  subst e
  exact ⟨rfl, rfl⟩

theorem lookahead_read_only_witness :
    (∃ c, Peek (stateAt "a.b" 1) = some (c, stateAt "a.b" 1))
      ∧ (∃ c, PeekN (stateAt "a.b" 1) 1 = some (c, stateAt "a.b" 1))
      ∧ peekAll (stateAt "a.b" 1) [0, 1, 5] = some (stateAt "a.b" 1)
      ∧ (peekAll (stateAt "a.b" 1) [0, 1, 5]).bind (NextToken sampleEnv)
          = NextToken sampleEnv (stateAt "a.b" 1) :=
  (lookahead_read_only sampleEnv (stateAt "a.b" 1) 1 [0, 1, 5] (by decide) (by decide)
    (by decide)).2.2.2

/-- The value of `PeekN(n)` for `n ≥ 0` when `readPosition + n` is in the range
of `int`: `input[readPosition + n]` inside the input, the sentinel `0` at or
beyond its end; and `Peek()` is `PeekN(0)`. -/
theorem PeekN_value (l : Lexer) (n : Nat)
    (hmax : (l.readPosition : Int) + (n : Int) ≤ maxInt) :
    PeekN l (n : Int)
        = some ((if h : l.readPosition + n < l.input.length then l.input[l.readPosition + n]
                 else nul), l)
      ∧ Peek l = PeekN l 0 := by
  refine ⟨?_, rfl⟩
  rw [PeekN_nonneg l n hmax]
  by_cases h : l.readPosition + n < l.input.length
  · rw [dif_pos h, List.getElem?_eq_getElem h]; rfl
  · rw [dif_neg h, List.getElem?_eq_none (by omega)]; rfl

/-! ## One call of `NextToken` from a reachable state -/

theorem mem_drop_index (xs : List Char) (a : Nat) (d : Char) (h : d ∈ xs.drop a) :
    ∃ i, a ≤ i ∧ xs[i]? = some d := by
  obtain ⟨j, hj⟩ := List.mem_iff_getElem?.mp h
  rw [List.getElem?_drop] at hj
  exact ⟨a + j, by omega, hj⟩

/-- What one call of `NextToken` does in the state `stateAt input n`: the skip
stops in `stateAt input m`, the token carries the start position of that state,
the lexer is left in `stateAt input q`, a token of a type other than `EOF` has
advanced the cursor, and the literal is made of the sentinel and of characters
of the input at indices from `m - 1` on. -/
theorem NextToken_from_stateAt (env : Env) (input : String) (n : Nat) (tok : Token)
    (l1 : Lexer) (h : NextToken env (stateAt input n) = some (tok, l1)) :
    ∃ m q, skipWhitespace (stateAt input n) = stateAt input m ∧ l1 = stateAt input q
      ∧ n ≤ m ∧ 1 ≤ m ∧ m ≤ q
      ∧ isSpace (stateAt input m).char = false
      ∧ tok.Pos = startPos (stateAt input m)
      ∧ (tok.Typ ≠ TokenType.EOF → m + 1 ≤ q)
      ∧ (∀ d ∈ tok.Literal.toList, d = nul ∨ ∃ i, m ≤ i + 1 ∧ input.toList[i]? = some d) := by
  obtain ⟨m, h1, h2, h3, _, h5, _⟩ := skip_stateAt input n
  cases hk : env.tokenMap (skipWhitespace (stateAt input n)).char with
  | some t =>
    rw [NextToken_key env _ t hk, h1, ReadNext_stateAt] at h
    simp only [Option.some.injEq, Prod.mk.injEq] at h
    obtain ⟨ht, hl⟩ := h
    subst ht; subst hl
    refine ⟨m, m + 1, h1, rfl, h2, h3, by omega, h5, rfl, fun _ => le_refl _, ?_⟩
    intro d hd
    have hd2 : d = (stateAt input m).char := by simpa [String.singleton] using hd
    obtain ⟨j, rfl⟩ : ∃ j, m = j + 1 := ⟨m - 1, by omega⟩
    rw [stateAt_char_getD] at hd2
    cases hj : input.toList[j]? with
    | none => left; rw [hd2, hj]; rfl
    | some x => right; exact ⟨j, le_refl _, by rw [hd2, hj]; rfl⟩
  | none =>
    by_cases hc : (skipWhitespace (stateAt input n)).char = nul
    · rw [NextToken_eof env _ hk hc, h1] at h
      simp only [Option.some.injEq, Prod.mk.injEq] at h
      obtain ⟨ht, hl⟩ := h
      subst ht; subst hl
      refine ⟨m, m, h1, rfl, h2, h3, le_refl _, h5, rfl, fun hne => absurd rfl hne, ?_⟩
      intro d hd
      simp at hd
    · by_cases hl : isLetter env (skipWhitespace (stateAt input n)).char = true
      · have hl2 := hl
        rw [h1] at hl2
        obtain ⟨q, e, hq, _⟩ := readIdentifier_stateAt env input m h3 hl2
        rw [NextToken_ident env _ hk hc hl, h1, e] at h
        simp only [Option.map_some', Option.some.injEq, Prod.mk.injEq] at h
        obtain ⟨ht, hl⟩ := h
        subst ht; subst hl
        refine ⟨m, q, h1, rfl, h2, h3, by omega, h5, rfl, fun _ => by omega, ?_⟩
        intro d hd
        have hd2 : d ∈ (input.toList.drop (m - 1)).take (q - m) := hd
        obtain ⟨i, hi, hi2⟩ := mem_drop_index _ _ _ (List.mem_of_mem_take hd2)
        right
        exact ⟨i, by omega, hi2⟩
      · rw [NextToken_unknown env _ hk hc (by simpa using hl), h1, ReadNext_stateAt] at h
        simp only [Option.some.injEq, Prod.mk.injEq] at h
        obtain ⟨ht, hl⟩ := h
        subst ht; subst hl
        refine ⟨m, m + 1, h1, rfl, h2, h3, by omega, h5, rfl, fun _ => le_refl _, ?_⟩
        intro d hd
        have hd2 : d = (stateAt input (m + 1)).char := by simpa [String.singleton] using hd
        rw [stateAt_char_getD] at hd2
        cases hj : input.toList[m]? with
        | none => left; rw [hd2, hj]; rfl
        | some x => right; exact ⟨m, by omega, by rw [hd2, hj]; rfl⟩

/-! ## Positions -/

theorem foldl_col_no_lf (xs : List Char) (a : Int) (h : ∀ c ∈ xs, c ≠ '\n') :
    xs.foldl (fun col c => if c = '\n' then 1 else col + 1) a = a + xs.length := by
  induction xs generalizing a with
  | nil => simp
  | cons x xs ih =>
    have hx : x ≠ '\n' := h x (List.mem_cons_self x xs)
    rw [List.foldl_cons, if_neg hx, ih _ (fun c hc => h c (List.mem_cons_of_mem x hc))]
    simp only [List.length_cons, Nat.cast_add, Nat.cast_one]
    omega

theorem colAfter_no_lf (xs : List Char) (h : ∀ c ∈ xs, c ≠ '\n') :
    colAfter xs = xs.length + 1 := by
  unfold colAfter
  rw [foldl_col_no_lf xs 1 h]; omega

theorem colAfter_after_lf (xs ys : List Char) (h : ∀ c ∈ ys, c ≠ '\n') :
    colAfter (xs ++ '\n' :: ys) = ys.length + 1 := by
  unfold colAfter
  rw [List.foldl_append, List.foldl_cons, if_pos rfl, foldl_col_no_lf ys 1 h]; omega

/-- The column counter after the first `o` characters, by the last line feed
among them. -/
theorem colAfter_take (xs : List Char) (o : Nat) (ho : o ≤ xs.length) :
    (∀ j, j < o → xs[j]? = some '\n' → (∀ i, j < i → i < o → xs[i]? ≠ some '\n') →
        colAfter (xs.take o) = (o : Int) - j)
      ∧ ((∀ i, i < o → xs[i]? ≠ some '\n') → colAfter (xs.take o) = (o : Int) + 1) := by
  constructor
  · intro j hj hlf hno
    have hjlen : j < (xs.take o).length := by rw [List.length_take]; omega
    have hget : (xs.take o)[j] = '\n' := by
      have e : (xs.take o)[j]? = some '\n' := by rw [List.getElem?_take_of_lt hj]; exact hlf
      rw [List.getElem?_eq_getElem hjlen] at e
      exact Option.some.inj e
    have hsplit : xs.take o
        = (xs.take o).take j ++ '\n' :: (xs.take o).drop (j + 1) := by
      conv_lhs => rw [← List.take_append_drop j (xs.take o)]
      rw [List.drop_eq_getElem_cons hjlen, hget]
    have hys : ∀ c ∈ (xs.take o).drop (j + 1), c ≠ '\n' := by
      intro c hc e
      subst e
      obtain ⟨i, hi, hi2⟩ := mem_drop_index _ _ _ hc
      rw [List.getElem?_take] at hi2
      by_cases hio : i < o
      · rw [if_pos hio] at hi2
        exact hno i (by omega) hio hi2
      · rw [if_neg hio] at hi2
        exact absurd hi2 (by simp)
    rw [hsplit, colAfter_after_lf _ _ hys, List.length_drop, List.length_take]
    omega
  · intro hno
    have hall : ∀ c ∈ xs.take o, c ≠ '\n' := by
      intro c hc e
      subst e
      obtain ⟨i, hi⟩ := List.mem_iff_getElem?.mp hc
      rw [List.getElem?_take] at hi
      by_cases hio : i < o
      · rw [if_pos hio] at hi
        exact hno i hio hi
      · rw [if_neg hio] at hi
        exact absurd hi (by simp)
    rw [colAfter_no_lf _ hall, List.length_take]
    omega

/-- The start position captured on a character of the input that is no white
space: its index, one more than the line feeds before it, and the column
counter of the characters before it. -/
theorem startPos_stateAt (input : String) (o : Nat) (ho : o < input.toList.length)
    (hns : isSpace (stateAt input (o + 1)).char = false) :
    startPos (stateAt input (o + 1))
      = { Offset := o, Line := 1 + lineFeeds (input.toList.take o),
          Column := colAfter (input.toList.take o) } := by
  have hch := stateAt_char input o ho
  have hne : input.toList[o] ≠ '\n' := by
    intro e
    rw [hch, e] at hns
    exact absurd hns (by decide)
  have htk : input.toList.take (o + 1) = input.toList.take o ++ [input.toList[o]] := by
    rw [List.take_succ, List.getElem?_eq_getElem ho]; rfl
  simp only [startPos, stateAt, htk, colAfter_snoc, lineFeeds_snoc, if_neg hne,
    Nat.add_sub_cancel, add_sub_cancel_right]

/-- The position of a token that starts inside the input. -/
theorem token_pos (env : Env) (input : String) (k : Nat) (tok : Token) (o : Nat)
    (ht : nthToken env input k = some tok) (hs : tokenStart env input k = some o)
    (ho : o < input.toList.length) :
    tok.Pos = { Offset := o, Line := 1 + lineFeeds (input.toList.take o),
                Column := colAfter (input.toList.take o) } := by
  obtain ⟨n, hn⟩ := lexerAfter_stateAt env input k
  rw [nthToken_of_lexerAfter env input k _ hn] at ht
  cases hr : NextToken env (stateAt input n) with
  | none => rw [hr] at ht; simp at ht
  | some r =>
    obtain ⟨tok1, l1⟩ := r
    rw [hr] at ht
    simp only [Option.map_some', Option.some.injEq] at ht
    subst ht
    obtain ⟨m, q, h1, _, _, h3, _, h5, h6, _, _⟩ := NextToken_from_stateAt env input n _ _ hr
    simp only [tokenStart, hn, Option.map_some', h1, Option.some.injEq] at hs
    have hm : m = o + 1 := by
      have : (stateAt input m).position = m - 1 := rfl
      omega
    subst hm
    rw [h6, startPos_stateAt input o ho h5]

/-- C6: scanning from `NewLexer input` with `NextToken` only, a token that starts
at the index `o < len(input)` reports `Pos.Line = 1 +` the number of line feeds
in `input[0..o)`. -/
theorem token_line (env : Env) (input : String) (k : Nat) (tok : Token) (o : Nat)
    (ht : nthToken env input k = some tok) (hs : tokenStart env input k = some o)
    (ho : o < input.toList.length) :
    tok.Pos.Line = 1 + ((input.toList.take o).count '\n' : Nat) := by
  rw [token_pos env input k tok o ht hs ho]; rfl

theorem token_line_witness :
    nthToken sampleEnv "a\nb" 1
        = some { Typ := TokenType.IDENT, Literal := "b", Pos := ⟨2, 2, 1⟩ }
      ∧ tokenStart sampleEnv "a\nb" 1 = some 2
      ∧ (2 : Int) = 1 + (("a\nb".toList.take 2).count '\n' : Nat) :=
  ⟨by decide, by decide,
    token_line sampleEnv "a\nb" 1 { Typ := TokenType.IDENT, Literal := "b", Pos := ⟨2, 2, 1⟩ } 2
      (by decide) (by decide) (by decide)⟩

/-- C7: scanning from `NewLexer input` with `NextToken` only, a token that starts
at the index `o < len(input)` (the cursor index after the whitespace skip,
counted in code points) reports `Pos.Offset = o`, and `Pos.Column = o - j` where
`j` is the index of the last line feed in `input[0..o)`, or `Pos.Column = o + 1`
when `input[0..o)` has no line feed. -/
theorem token_offset_column (env : Env) (input : String) (k : Nat) (tok : Token) (o : Nat)
    (ht : nthToken env input k = some tok) (hs : tokenStart env input k = some o)
    (ho : o < input.toList.length) :
    tok.Pos.Offset = o
      ∧ (∀ j, j < o → input.toList[j]? = some '\n' →
          (∀ i, j < i → i < o → input.toList[i]? ≠ some '\n') →
          tok.Pos.Column = (o : Int) - j)
      ∧ ((∀ i, i < o → input.toList[i]? ≠ some '\n') → tok.Pos.Column = (o : Int) + 1) := by
  rw [token_pos env input k tok o ht hs ho]
  exact ⟨rfl, colAfter_take input.toList o (by omega)⟩

theorem token_offset_column_witness :
    nthToken sampleEnv "ab\n  cd.e" 2
        = some { Typ := TokenType.other 0, Literal := ".", Pos := ⟨7, 2, 5⟩ }
      ∧ tokenStart sampleEnv "ab\n  cd.e" 2 = some 7
      ∧ "ab\n  cd.e".toList[2]? = some '\n'
      ∧ (5 : Int) = (7 : Nat) - (2 : Nat) :=
  ⟨by decide, by decide, by decide,
    (token_offset_column sampleEnv "ab\n  cd.e" 2
      { Typ := TokenType.other 0, Literal := ".", Pos := ⟨7, 2, 5⟩ } 7
      (by decide) (by decide) (by decide)).2.1 2 (by decide) (by decide)
      (by intro i h1 h2; interval_cases i <;> decide)⟩

/-! ## Termination and the length of the token stream -/

theorem nthToken_some (env : Env) (input : String) (k : Nat) :
    ∃ tok, nthToken env input k = some tok := by
  obtain ⟨n, hn⟩ := lexerAfter_stateAt env input k
  obtain ⟨tok, q, e, _⟩ := NextToken_stateAt env input n
  exact ⟨tok, by rw [nthToken_of_lexerAfter env input k _ hn, e]; rfl⟩

/-- While no token of type `EOF` has been returned, `k` calls have read more
than `k` characters. -/
theorem lexerAfter_progress (env : Env) (input : String) (k : Nat)
    (h : ∀ i, i < k → (nthToken env input i).map Token.Typ ≠ some TokenType.EOF) :
    ∃ n, lexerAfter env input k = some (stateAt input n) ∧ (k = 0 ∨ k + 1 ≤ n) := by
  induction k with
  | zero =>
    obtain ⟨n, hn⟩ := lexerAfter_stateAt env input 0
    exact ⟨n, hn, Or.inl rfl⟩
  | succ k ih =>
    obtain ⟨n, hn, hk⟩ := ih (fun i hi => h i (by omega))
    obtain ⟨tok, q, e, _⟩ := NextToken_stateAt env input n
    obtain ⟨m, q2, _, h2, h3, h4, _, _, _, h8, _⟩ := NextToken_from_stateAt env input n _ _ e
    have hne : tok.Typ ≠ TokenType.EOF := by
      intro heq
      apply h k (by omega)
      rw [nthToken_of_lexerAfter env input k _ hn, e]
      simp [heq]
    have hq := h8 hne
    refine ⟨q2, ?_, Or.inr ?_⟩
    · rw [lexerAfter_succ_of env input k _ _ _ hn e, h2]
    · omega

/-- C8: every loop of the lexer ends, every call of `NextToken` on a lexer
reached from `NewLexer input` by `NextToken` calls returns a token, a token of a
type other than `EOF` advances the cursor by at least one code point, and with
`0` not a key of `tokenMap` one of the first `len(input) + 1` calls returns
`EOF`: at most `len(input)` tokens of another type come before it. -/
theorem token_stream_finite (env : Env) (input : String) (h0 : env.tokenMap nul = none) :
    (∀ l, isSpace (skipWhitespace l).char = false)
      ∧ (∀ l, isIdentChar env (run (isIdentChar env) l).char = false)
      ∧ (∀ k, ∃ tok, nthToken env input k = some tok)
      ∧ (∀ k l tok l1, lexerAfter env input k = some l → NextToken env l = some (tok, l1) →
          tok.Typ ≠ TokenType.EOF → l.position + 1 ≤ l1.position)
      ∧ ∃ k, k ≤ input.toList.length
          ∧ (nthToken env input k).map Token.Typ = some TokenType.EOF := by
  refine ⟨run_exit isSpace isSpace_nul, run_exit (isIdentChar env) (isIdentChar_nul env),
    nthToken_some env input, ?_, ?_⟩
  · intro k l tok l1 hk hn hne
    obtain ⟨n, hn2⟩ := lexerAfter_stateAt env input k
    rw [hk] at hn2
    cases hn2
    obtain ⟨m, q, _, h2, h3, h4, _, _, _, h8, _⟩ := NextToken_from_stateAt env input n _ _ hn
    have hq := h8 hne
    subst h2
    have e1 : (stateAt input n).position = n - 1 := rfl
    have e2 : (stateAt input q).position = q - 1 := rfl
    omega
  · by_cases hex : ∃ i, i < input.toList.length
        ∧ (nthToken env input i).map Token.Typ = some TokenType.EOF
    · obtain ⟨i, hi, he⟩ := hex
      exact ⟨i, by omega, he⟩
    · have hall : ∀ i, i < input.toList.length →
          (nthToken env input i).map Token.Typ ≠ some TokenType.EOF :=
        fun i hi he => hex ⟨i, hi, he⟩
      obtain ⟨n, hn, hk⟩ := lexerAfter_progress env input input.toList.length hall
      refine ⟨input.toList.length, le_refl _, ?_⟩
      obtain ⟨m, h1, h2, h3, _, _, _⟩ := skip_stateAt input n
      have hc : (skipWhitespace (stateAt input n)).char = nul := by
        rw [h1]; exact stateAt_char_end input m (by omega)
      rw [nthToken_of_lexerAfter env input _ _ hn,
        NextToken_eof env _ (by rw [hc]; exact h0) hc]
      rfl

theorem token_stream_finite_witness :
    sampleEnv.tokenMap nul = none
      ∧ (nthToken sampleEnv "a.b" 3).map Token.Typ = some TokenType.EOF
      ∧ ∃ k, k ≤ "a.b".toList.length
          ∧ (nthToken sampleEnv "a.b" k).map Token.Typ = some TokenType.EOF :=
  ⟨by decide, by decide, (token_stream_finite sampleEnv "a.b" (by decide)).2.2.2.2⟩

/-! ## The table path and the unknown path -/

/-- C9: in a reachable state in which, after the whitespace skip, the current
character `c` (the one at the index `p` of the input) is a key of `tokenMap`
mapped to `t`, whatever else `c` is (a letter, the sentinel), `NextToken` returns
a token of type `t` with the one-character literal `c` and `Pos.Offset = p`, and
advances the cursor once: `position` is `p + 1` and `readPosition` is `p + 2`. -/
theorem single_char_token (env : Env) (input : String) (l : Lexer)
    (hr : Reachable env input l) (t : TokenType)
    (hkey : env.tokenMap (skipWhitespace l).char = some t) :
    NextToken env l
        = some ({ Typ := t, Literal := String.singleton (skipWhitespace l).char,
                  Pos := { Offset := (skipWhitespace l).position,
                           Line := (skipWhitespace l).line,
                           Column := (skipWhitespace l).column - 1 } },
                ReadNext (skipWhitespace l))
      ∧ (input.toList[(skipWhitespace l).position]?).getD nul = (skipWhitespace l).char
      ∧ (ReadNext (skipWhitespace l)).position = (skipWhitespace l).position + 1
      ∧ (ReadNext (skipWhitespace l)).readPosition = (skipWhitespace l).position + 2 := by
  obtain ⟨n, rfl⟩ := Reachable_stateAt env input l hr
  obtain ⟨m, h1, _, h3, _, _, _⟩ := skip_stateAt input n
  refine ⟨NextToken_key env _ t hkey, ?_⟩
  rw [h1, ReadNext_stateAt]
  obtain ⟨j, rfl⟩ : ∃ j, m = j + 1 := ⟨m - 1, by omega⟩
  exact ⟨(stateAt_char_getD input j).symm, rfl, rfl⟩

theorem single_char_token_witness :
    isLetter letterKeyEnv 'x' = true
      ∧ NextToken letterKeyEnv (NewLexer "xy")
          = some ({ Typ := TokenType.other 3, Literal := "x", Pos := ⟨0, 1, 1⟩ },
                  stateAt "xy" 2) :=
  ⟨by decide,
    (single_char_token letterKeyEnv "xy" (NewLexer "xy") ReachableFrom.start
      (TokenType.other 3) (by decide)).1.trans (by decide)⟩

/-- C10 (amended): in a reachable state in which, after the whitespace skip, the
current character (the one at the index `p` of the input) is not a key of
`tokenMap`, not the sentinel and not a letter, `NextToken` advances the cursor
once (`position` is `p + 1`, `readPosition` is `p + 2`) and returns a token of
type `UNKNOWN` with `Pos.Offset = p` whose literal is the new current character:
`input[p + 1]` when `p + 1 < len(input)`, the sentinel otherwise.  The character
at the index `p`, when it occurs nowhere else in the input, is in the literal of
neither this token nor any token returned later. -/
theorem unknown_token (env : Env) (input : String) (l : Lexer) (hr : Reachable env input l)
    (hkey : env.tokenMap (skipWhitespace l).char = none)
    (hc : (skipWhitespace l).char ≠ nul)
    (hl : isLetter env (skipWhitespace l).char = false) :
    NextToken env l
        = some ({ Typ := TokenType.UNKNOWN,
                  Literal := String.singleton
                    (if h : (skipWhitespace l).position + 1 < input.toList.length
                     then input.toList[(skipWhitespace l).position + 1] else nul),
                  Pos := { Offset := (skipWhitespace l).position,
                           Line := (skipWhitespace l).line,
                           Column := (skipWhitespace l).column - 1 } },
                ReadNext (skipWhitespace l))
      ∧ input.toList[(skipWhitespace l).position]? = some (skipWhitespace l).char
      ∧ (ReadNext (skipWhitespace l)).position = (skipWhitespace l).position + 1
      ∧ (ReadNext (skipWhitespace l)).readPosition = (skipWhitespace l).position + 2
      ∧ ((∀ i, input.toList[i]? = some (skipWhitespace l).char →
            i = (skipWhitespace l).position) →
          ∀ l2 tok2 l3, (l2 = l ∨ ReachableFrom env (ReadNext (skipWhitespace l)) l2) →
            NextToken env l2 = some (tok2, l3) →
            (skipWhitespace l).char ∉ tok2.Literal.toList) := by
  obtain ⟨n, rfl⟩ := Reachable_stateAt env input l hr
  obtain ⟨m, h1, h2, h3, _, _, _⟩ := skip_stateAt input n
  have hn := NextToken_unknown env _ hkey hc hl
  rw [h1] at hc hn ⊢
  rw [ReadNext_stateAt] at hn ⊢
  obtain ⟨j, rfl⟩ : ∃ j, m = j + 1 := ⟨m - 1, by omega⟩
  have hpos : (stateAt input (j + 1)).position = j := rfl
  rw [hpos]
  rw [stateAt_char_getD] at hc
  have hcj : input.toList[j]? = some (stateAt input (j + 1)).char := by
    rw [stateAt_char_getD]
    cases hj : input.toList[j]? with
    | none => rw [hj] at hc; exact absurd rfl hc
    | some x => rfl
  have hnew : (stateAt input (j + 1 + 1)).char
      = if h : j + 1 < input.toList.length then input.toList[j + 1] else nul := by
    rw [stateAt_char_getD]
    by_cases h : j + 1 < input.toList.length
    · rw [dif_pos h, List.getElem?_eq_getElem h]; rfl
    · rw [dif_neg h, List.getElem?_eq_none (by omega)]; rfl
  rw [hnew] at hn
  refine ⟨hn, hcj, rfl, rfl, ?_⟩
  intro huniq l2 tok2 l3 hfrom hn2 hmem
  have hcne : (stateAt input (j + 1)).char ≠ nul := by
    rw [stateAt_char_getD]; exact hc
  -- the literal holds the sentinel and characters at indices above `j` only
  have hlit : ∀ d ∈ tok2.Literal.toList,
      d = nul ∨ ∃ i, j + 1 ≤ i ∧ input.toList[i]? = some d := by
    rcases hfrom with rfl | hfrom
    · rw [hn] at hn2
      simp only [Option.some.injEq, Prod.mk.injEq] at hn2
      obtain ⟨ht, _⟩ := hn2
      subst ht
      intro d hd
      have hd2 : d = if h : j + 1 < input.toList.length then input.toList[j + 1] else nul := by
        simpa [String.singleton] using hd
      by_cases h : j + 1 < input.toList.length
      · rw [dif_pos h] at hd2
        exact Or.inr ⟨j + 1, le_refl _, by rw [hd2, List.getElem?_eq_getElem h]⟩
      · rw [dif_neg h] at hd2
        exact Or.inl hd2
    · obtain ⟨q, rfl, hq⟩ := ReachableFrom_stateAt env input (j + 1 + 1) l2 hfrom
      obtain ⟨m2, _, _, _, hm2, _, _, _, _, _, h9⟩ :=
        NextToken_from_stateAt env input q _ _ hn2
      intro d hd
      rcases h9 d hd with h | ⟨i, hi, hi2⟩
      · exact Or.inl h
      · exact Or.inr ⟨i, by omega, hi2⟩
  rcases hlit _ hmem with h | ⟨i, hi, hi2⟩
  · exact hcne h
  · have := huniq i hi2
    omega

theorem unknown_token_witness :
    NextToken sampleEnv (stateAt "a 1.b" 2)
      = some ({ Typ := TokenType.UNKNOWN, Literal := ".", Pos := ⟨2, 1, 3⟩ },
              stateAt "a 1.b" 4) :=
  (unknown_token sampleEnv "a 1.b" (stateAt "a 1.b" 2)
    (lexerAfter_reachable sampleEnv "a 1.b" 1 _ (by decide))
    (by decide) (by decide) (by decide)).1.trans (by decide)

/-- C10 as stated fails on `"12"` with neither digit a key: after the first
`NextToken` the current character is `2`, at the index `1`, not a key, not the
sentinel and not a letter, and it is the literal of the `UNKNOWN` token the first
call has returned. -/
theorem unknown_token_counterexample :
    lexerAfter sampleEnv "12" 1 = some (stateAt "12" 2)
      ∧ skipWhitespace (stateAt "12" 2) = stateAt "12" 2
      ∧ (stateAt "12" 2).position = 1 ∧ (stateAt "12" 2).char = '2'
      ∧ sampleEnv.tokenMap '2' = none ∧ '2' ≠ nul ∧ isLetter sampleEnv '2' = false
      ∧ nthToken sampleEnv "12" 0
          = some { Typ := TokenType.UNKNOWN, Literal := "2", Pos := ⟨0, 1, 1⟩ }
      ∧ ¬ SkippedInNoLiteral sampleEnv "12" 1 := by
  refine ⟨by decide, by decide, by decide, by decide, by decide, by decide, by decide,
    by decide, ?_⟩
  intro h
  have huniq : ∀ i, "12".toList[i]? = some '2' → i = 1 := by
    intro i hi
    rcases i with _ | _ | i
    · exact absurd hi (by decide)
    · rfl
    · exact absurd hi (by simp)
  exact h '2' (by decide) huniq 0 { Typ := TokenType.UNKNOWN, Literal := "2", Pos := ⟨0, 1, 1⟩ }
    (by decide) (by decide)

/-! ## Lookahead beyond the range of `int` -/

/-- C5: `PeekN(n)` with `n ≥ 0` is to return `input[readPosition + n]` inside
the input and the sentinel `0` beyond it.  After one `ReadNext` on `"ab"`
(`readPosition = 1`) the call `PeekN(MaxInt)` does neither: the `int` sum
`readPosition + n` wraps around to `MinInt`, the comparison with `len(input)`
fails and the index is out of range. -/
theorem PeekN_overflow_panics :
    (ReadNext (NewLexer "ab")).readPosition = 1 ∧ 0 ≤ maxInt
      ∧ wrapInt (((ReadNext (NewLexer "ab")).readPosition : Int) + maxInt) = minInt
      ∧ PeekN (ReadNext (NewLexer "ab")) maxInt = none := by
  decide

/-- C20: in every lexer state and for every `n`, `PeekN(n)` panics on an index
out of range if and only if the `int` value of `readPosition + n` is negative,
and returns a value otherwise; while the sum stays in the range of `int` that is
`readPosition + n < 0`.  `PeekN(-1)` on a fresh lexer panics. -/
theorem PeekN_fails_iff (l : Lexer) (n : Int) :
    (PeekN l n = none ↔ wrapInt ((l.readPosition : Int) + n) < 0)
      ∧ (¬ wrapInt ((l.readPosition : Int) + n) < 0 → ∃ c, PeekN l n = some (c, l))
      ∧ (minInt ≤ (l.readPosition : Int) + n → (l.readPosition : Int) + n ≤ maxInt →
          (PeekN l n = none ↔ (l.readPosition : Int) + n < 0))
      ∧ ∀ input, PeekN (NewLexer input) (-1) = none := by
  have main : (PeekN l n = none ↔ wrapInt ((l.readPosition : Int) + n) < 0)
      ∧ (¬ wrapInt ((l.readPosition : Int) + n) < 0 → ∃ c, PeekN l n = some (c, l)) := by
    unfold PeekN
    simp only
    by_cases h1 : (l.input.length : Int) ≤ wrapInt ((l.readPosition : Int) + n)
    · rw [if_pos h1]
      exact ⟨⟨fun h => absurd h (by simp), fun h => absurd h (by omega)⟩, fun _ => ⟨_, rfl⟩⟩
    · rw [if_neg h1]
      by_cases h2 : wrapInt ((l.readPosition : Int) + n) < 0
      · rw [if_pos h2]
        exact ⟨⟨fun _ => h2, fun _ => rfl⟩, fun h => absurd h2 h⟩
      · rw [if_neg h2]
        have h3 : (wrapInt ((l.readPosition : Int) + n)).toNat < l.input.length := by omega
        rw [List.getElem?_eq_getElem h3]
        exact ⟨⟨fun h => absurd h (by simp), fun h => absurd h h2⟩, fun _ => ⟨_, rfl⟩⟩
  refine ⟨main.1, main.2, ?_, ?_⟩
  · intro hlo hhi
    rw [main.1, wrapInt_eq _ hlo hhi]
  · intro input
    have e : wrapInt (((NewLexer input).readPosition : Int) + (-1)) = -1 := by
      simp only [NewLexer]; decide
    simp only [PeekN, e]
    have h1 : ¬ ((NewLexer input).input.length : Int) ≤ -1 := by omega
    rw [if_neg h1, if_pos (by decide)]

theorem PeekN_fails_iff_witness :
    (PeekN (stateAt "ab" 1) (-2) = none ↔ ((stateAt "ab" 1).readPosition : Int) + (-2) < 0)
      ∧ PeekN (stateAt "ab" 1) (-2) = none :=
  ⟨(PeekN_fails_iff (stateAt "ab" 1) (-2)).2.2.1 (by decide) (by decide), by decide⟩

/-! ## The advance operation past the end and on line feeds -/

theorem iterate_ReadNext_readPosition (l : Lexer) (k : Nat) :
    (ReadNext^[k] l).readPosition = l.readPosition + k
      ∧ (ReadNext^[k] l).input = l.input := by
  induction k with
  | zero => exact ⟨rfl, rfl⟩
  | succ k ih =>
    rw [Function.iterate_succ_apply', ReadNext_readPosition, ReadNext_input, ih.1, ih.2]
    exact ⟨by omega, rfl⟩

theorem iterate_ReadNext_end (l : Lexer) (h : l.input.length ≤ l.readPosition) (k : Nat) :
    (ReadNext^[k + 1] l).char = nul
      ∧ (ReadNext^[k + 1] l).position = l.readPosition + k := by
  have hk := iterate_ReadNext_readPosition l k
  rw [Function.iterate_succ_apply', ReadNext_position, hk.1]
  refine ⟨?_, rfl⟩
  apply ReadNext_char_end
  rw [hk.1, hk.2]; omega

/-- C11: in a lexer state with `readPosition ≥ len(input)`, `ReadNext` sets
`char` to the sentinel `0`, `position` to the old `readPosition` and adds one to
`readPosition`; after `k ≥ 1` further calls `char` is still `0` and `position`
and `readPosition` have each grown by `k`. -/
theorem ReadNext_at_end (l : Lexer) (h : l.input.length ≤ l.readPosition) (k : Nat)
    (hk : 1 ≤ k) :
    (ReadNext l).char = nul ∧ (ReadNext l).position = l.readPosition
      ∧ (ReadNext l).readPosition = l.readPosition + 1
      ∧ (ReadNext^[k] (ReadNext l)).char = nul
      ∧ (ReadNext^[k] (ReadNext l)).position = (ReadNext l).position + k
      ∧ (ReadNext^[k] (ReadNext l)).readPosition = (ReadNext l).readPosition + k := by
  obtain ⟨j, rfl⟩ : ∃ j, k = j + 1 := ⟨k - 1, by omega⟩
  have h1 : (ReadNext l).input.length ≤ (ReadNext l).readPosition := by
    rw [ReadNext_input, ReadNext_readPosition]; omega
  have e := iterate_ReadNext_end (ReadNext l) h1 j
  refine ⟨ReadNext_char_end l h, ReadNext_position l, ReadNext_readPosition l, e.1, ?_,
    (iterate_ReadNext_readPosition (ReadNext l) (j + 1)).1⟩
  rw [e.2, ReadNext_readPosition, ReadNext_position]; omega

theorem ReadNext_at_end_witness :
    (ReadNext (stateAt "ab" 2)).char = nul ∧ (ReadNext (stateAt "ab" 2)).position = 2
      ∧ (ReadNext (stateAt "ab" 2)).readPosition = 2 + 1
      ∧ (ReadNext^[3] (ReadNext (stateAt "ab" 2))).char = nul
      ∧ (ReadNext^[3] (ReadNext (stateAt "ab" 2))).position
          = (ReadNext (stateAt "ab" 2)).position + 3
      ∧ (ReadNext^[3] (ReadNext (stateAt "ab" 2))).readPosition
          = (ReadNext (stateAt "ab" 2)).readPosition + 3 :=
  ReadNext_at_end (stateAt "ab" 2) (by decide) 3 (by decide)

/-- C13 (amended): a call of `ReadNext` with `readPosition < len(input)` that
reads a character other than a line feed adds one to `column` and leaves `line`
as it is; one that reads a line feed adds one to `line` and sets `column` to 1;
a call with `readPosition ≥ len(input)` reads nothing and leaves `line` and
`column` as they are. -/
theorem ReadNext_line_column (l : Lexer) (c : Char) :
    (l.input[l.readPosition]? = some c → c ≠ '\n' →
        (ReadNext l).column = l.column + 1 ∧ (ReadNext l).line = l.line)
      ∧ (l.input[l.readPosition]? = some '\n' →
        (ReadNext l).column = 1 ∧ (ReadNext l).line = l.line + 1)
      ∧ (l.input.length ≤ l.readPosition →
        (ReadNext l).column = l.column ∧ (ReadNext l).line = l.line) := by
  refine ⟨?_, ?_, ?_⟩
  · intro hc hne
    have hlt : l.readPosition < l.input.length := by
      by_contra hge
      rw [List.getElem?_eq_none (by omega)] at hc
      exact absurd hc (by simp)
    have hnot : ¬ l.input.length ≤ l.readPosition := by omega
    have hget : l.input[l.readPosition] = c := by
      rw [List.getElem?_eq_getElem hlt] at hc
      exact Option.some.inj hc
    unfold ReadNext
    rw [dif_neg hnot]
    simp only [hget, if_neg hne, and_self]
  · intro hc
    have hlt : l.readPosition < l.input.length := by
      by_contra hge
      rw [List.getElem?_eq_none (by omega)] at hc
      exact absurd hc (by simp)
    have hnot : ¬ l.input.length ≤ l.readPosition := by omega
    have hget : l.input[l.readPosition] = '\n' := by
      rw [List.getElem?_eq_getElem hlt] at hc
      exact Option.some.inj hc
    unfold ReadNext
    rw [dif_neg hnot]
    simp only [hget, if_true, and_self]
  · intro hge
    unfold ReadNext
    rw [dif_pos hge]
    exact ⟨rfl, rfl⟩

theorem ReadNext_line_column_witness :
    ((ReadNext (stateAt "a\nb" 0)).column = (stateAt "a\nb" 0).column + 1
        ∧ (ReadNext (stateAt "a\nb" 0)).line = (stateAt "a\nb" 0).line)
      ∧ ((ReadNext (stateAt "a\nb" 1)).column = 1
        ∧ (ReadNext (stateAt "a\nb" 1)).line = (stateAt "a\nb" 1).line + 1)
      ∧ ((ReadNext (stateAt "a\nb" 3)).column = (stateAt "a\nb" 3).column
        ∧ (ReadNext (stateAt "a\nb" 3)).line = (stateAt "a\nb" 3).line) :=
  ⟨(ReadNext_line_column (stateAt "a\nb" 0) 'a').1 (by decide) (by decide),
    (ReadNext_line_column (stateAt "a\nb" 1) 'a').2.1 (by decide),
    (ReadNext_line_column (stateAt "a\nb" 3) 'a').2.2 (by decide)⟩

/-- C13 as stated fails at the end of the input: after the one character of
`"a"` has been read, `ReadNext` reads no line feed (the new character is the
sentinel) and does not add one to `column`. -/
theorem ReadNext_line_column_counterexample :
    (stateAt "a" 1).column = 2 ∧ (ReadNext (stateAt "a" 1)).char = nul
      ∧ (ReadNext (stateAt "a" 1)).char ≠ '\n'
      ∧ (ReadNext (stateAt "a" 1)).column = 2
      ∧ ¬ (∀ l : Lexer, (ReadNext l).char ≠ '\n' → (ReadNext l).column = l.column + 1) := by
  refine ⟨by decide, by decide, by decide, by decide, ?_⟩
  intro h
  exact absurd (h (stateAt "a" 1) (by decide)) (by decide)

/-- C15: in a lexer state whose `readPosition` is a value of `int` (every state
the lexer can be in), `Peek()` returns the value `char` has after one call of
`ReadNext`: the next character, or the sentinel `0` at the end of the input. -/
theorem Peek_predicts_ReadNext (l : Lexer) (h : (l.readPosition : Int) ≤ maxInt) :
    Peek l = some ((ReadNext l).char, l)
      ∧ (ReadNext l).char = (l.input[l.readPosition]?).getD nul := by
  have e := PeekN_nonneg l 0 (by simpa using h)
  simp only [Nat.add_zero] at e
  refine ⟨?_, ReadNext_char l⟩
  rw [ReadNext_char]
  exact e

theorem Peek_predicts_ReadNext_witness :
    Peek (stateAt "a.b" 1) = some ('.', stateAt "a.b" 1)
      ∧ (ReadNext (stateAt "a.b" 1)).char = '.' :=
  ⟨(Peek_predicts_ReadNext (stateAt "a.b" 1) (by decide)).1.trans (by decide), by decide⟩

/-! ## The cursor invariant -/

/-- C14: in every lexer state reached from `NewLexer input` by a first
`ReadNext` (called directly or inside `NextToken`) and then any sequence of
`ReadNext`, `NextToken`, `Peek` and `PeekN` calls, `readPosition = position + 1`,
`char = input[position]` when `position < len(input)`, and `char = 0` when
`position ≥ len(input)`. -/
theorem cursor_invariant (env : Env) (input : String) (l0 l l1 : Lexer) (ns : List Int)
    (h0 : l0 = ReadNext (NewLexer input)
      ∨ ∃ tok, NextToken env (NewLexer input) = some (tok, l0))
    (hr : ReachableFrom env l0 l) (hp : peekAll l ns = some l1) :
    l1.input = input.toList ∧ l1.readPosition = l1.position + 1
      ∧ (∀ h : l1.position < input.toList.length, l1.char = input.toList[l1.position])
      ∧ (input.toList.length ≤ l1.position → l1.char = nul) := by
  have hl0 : ∃ n0, l0 = stateAt input n0 ∧ 1 ≤ n0 := by
    rcases h0 with rfl | ⟨tok, hn⟩
    · exact ⟨1, by rw [← stateAt_zero, ReadNext_stateAt], le_refl 1⟩
    · rw [← stateAt_zero] at hn
      obtain ⟨m, q, _, h2, _, h4, h5, _⟩ := NextToken_from_stateAt env input 0 _ _ hn
      exact ⟨q, h2, by omega⟩
  obtain ⟨n0, rfl, hn0⟩ := hl0
  obtain ⟨q, rfl, hq⟩ := ReachableFrom_stateAt env input n0 l hr
  have e := peekAll_same _ ns l1 hp
  subst e
  obtain ⟨j, rfl⟩ : ∃ j, q = j + 1 := ⟨q - 1, by omega⟩
  have hpos : (stateAt input (j + 1)).position = j := rfl
  refine ⟨rfl, rfl, ?_, ?_⟩
  · intro h
    simp only [hpos] at h ⊢
    exact stateAt_char input j h
  · intro h
    rw [hpos] at h
    exact stateAt_char_end input (j + 1) (by omega)

theorem cursor_invariant_witness :
    (stateAt "a.b" 4).input = "a.b".toList
      ∧ (stateAt "a.b" 4).readPosition = (stateAt "a.b" 4).position + 1
      ∧ (∀ h : (stateAt "a.b" 4).position < "a.b".toList.length,
          (stateAt "a.b" 4).char = "a.b".toList[(stateAt "a.b" 4).position])
      ∧ ("a.b".toList.length ≤ (stateAt "a.b" 4).position → (stateAt "a.b" 4).char = nul) :=
  cursor_invariant sampleEnv "a.b" (stateAt "a.b" 2) (stateAt "a.b" 4) (stateAt "a.b" 4) [0, 2]
    (Or.inr ⟨{ Typ := TokenType.IDENT, Literal := "a", Pos := ⟨0, 1, 1⟩ }, by decide⟩)
    (ReachableFrom.readNext
      (ReachableFrom.nextToken ReachableFrom.start
        (show NextToken sampleEnv (stateAt "a.b" 2)
            = some ({ Typ := TokenType.other 0, Literal := ".", Pos := ⟨1, 1, 2⟩ },
                    stateAt "a.b" 3) by decide)))
    (by decide)

/-! ## Identifier scanning -/

theorem isLetter_space (env : Env) : isLetter env ' ' = false := by
  simp [isLetter, runeSelf]

/-- The method `readIdentifier` entered on a letter at the index `p`: the slice
`input[p:q]` up to the least `q` whose character is no letter, digit or hyphen. -/
theorem readIdentifier_maximal_stateAt (env : Env) (input : String) (p : Nat)
    (hl : isLetter env (stateAt input (p + 1)).char = true) :
    ∃ q, p < q ∧ q ≤ input.toList.length
      ∧ input.toList[p]? = some (stateAt input (p + 1)).char
      ∧ readIdentifier env (stateAt input (p + 1))
          = some (String.mk ((input.toList.drop p).take (q - p)), stateAt input (q + 1))
      ∧ (∀ i, p ≤ i → i < q → ∃ c, input.toList[i]? = some c ∧ isIdentChar env c = true)
      ∧ (∀ c, input.toList[q]? = some c → isIdentChar env c = false) := by
  obtain ⟨q1, e, h1, h2, h3, h4⟩ := readIdentifier_stateAt env input (p + 1) (by omega) hl
  obtain ⟨q, rfl⟩ : ∃ q, q1 = q + 1 := ⟨q1 - 1, by omega⟩
  have hsub : q + 1 - (p + 1) = q - p := by omega
  rw [Nat.add_sub_cancel, hsub] at e
  have hp : p < input.toList.length := by omega
  refine ⟨q, by omega, by omega, ?_, e, ?_, ?_⟩
  · rw [stateAt_char input p hp, List.getElem?_eq_getElem hp]
  · intro i hi1 hi2
    have hi : i < input.toList.length := by omega
    refine ⟨input.toList[i], List.getElem?_eq_getElem hi, ?_⟩
    have := h4 (i + 1) (by omega) (by omega)
    rw [stateAt_char input i hi] at this
    exact this
  · intro c hc
    rw [stateAt_char_getD, hc] at h3
    exact h3

/-- A slice of identifier characters that starts on a letter is not empty,
starts with that letter and holds identifier characters only. -/
theorem ident_slice_props (env : Env) (xs : List Char) (p q : Nat) (c0 : Char)
    (hpq : p < q) (h0 : xs[p]? = some c0)
    (hall : ∀ i, p ≤ i → i < q → ∃ c, xs[i]? = some c ∧ isIdentChar env c = true) :
    (xs.drop p).take (q - p) ≠ [] ∧ ((xs.drop p).take (q - p)).head? = some c0
      ∧ ∀ c ∈ (xs.drop p).take (q - p), isIdentChar env c = true := by
  have hhead : ((xs.drop p).take (q - p)).head? = some c0 := by
    rw [List.head?_eq_getElem?, List.getElem?_take_of_lt (by omega), List.getElem?_drop]
    exact h0
  refine ⟨?_, hhead, ?_⟩
  · intro e
    rw [e] at hhead
    exact absurd hhead (by simp)
  · intro c hc
    obtain ⟨j, hj⟩ := List.mem_iff_getElem?.mp hc
    rw [List.getElem?_take] at hj
    by_cases hjlt : j < q - p
    · rw [if_pos hjlt, List.getElem?_drop] at hj
      obtain ⟨c1, hc1, hid⟩ := hall (p + j) (by omega) (by omega)
      rw [hj] at hc1
      cases hc1
      exact hid
    · rw [if_neg hjlt] at hj
      exact absurd hj (by simp)

/-- C12: in a reachable state whose current character, at the index `p`, is a
letter, `readIdentifier` returns exactly `input[p:q]`, where `q > p` is the least
index at which `input[q]` is no letter, digit or hyphen (`q = len(input)` when
there is none), and leaves `position = q` with `input[q]`, or the sentinel `0`,
as current character; hence the literal of every `IDENT` token `readRunesToken`
builds is not empty, starts with a letter and holds letters, digits and hyphens
only. -/
theorem identifier_maximal_munch (env : Env) (input : String) (l : Lexer)
    (hr : Reachable env input l) :
    (isLetter env l.char = true →
      ∃ q l1, l.position < q ∧ q ≤ input.toList.length
        ∧ input.toList[l.position]? = some l.char
        ∧ readIdentifier env l
            = some (String.mk ((input.toList.drop l.position).take (q - l.position)), l1)
        ∧ l1.position = q ∧ l1.char = (input.toList[q]?).getD nul
        ∧ (∀ i, l.position ≤ i → i < q →
            ∃ c, input.toList[i]? = some c ∧ isIdentChar env c = true)
        ∧ (∀ c, input.toList[q]? = some c → isIdentChar env c = false))
      ∧ (∀ tok l1, readRunesToken env l = some (tok, l1) → tok.Typ = TokenType.IDENT →
          tok.Literal.toList ≠ []
            ∧ (∃ c, tok.Literal.toList.head? = some c ∧ isLetter env c = true)
            ∧ ∀ c ∈ tok.Literal.toList, isIdentChar env c = true) := by
  obtain ⟨n, rfl⟩ := Reachable_stateAt env input l hr
  have hn : isLetter env (stateAt input n).char = true → ∃ p, n = p + 1 := by
    intro hl
    refine ⟨n - 1, ?_⟩
    by_contra hne
    have h0 : n = 0 := by omega
    subst h0
    have e : (stateAt input 0).char = ' ' := rfl
    rw [e, isLetter_space] at hl
    exact absurd hl (by decide)
  constructor
  · intro hl
    obtain ⟨p, rfl⟩ := hn hl
    obtain ⟨q, h1, h2, h3, h4, h5, h6⟩ := readIdentifier_maximal_stateAt env input p hl
    exact ⟨q, stateAt input (q + 1), h1, h2, h3, h4, rfl, stateAt_char_getD input q, h5, h6⟩
  · intro tok l1 hrt htyp
    unfold readRunesToken at hrt
    by_cases hc : (stateAt input n).char = nul
    · rw [if_pos hc] at hrt
      cases hrt
      exact absurd htyp (by simp)
    · rw [if_neg hc] at hrt
      by_cases hl : isLetter env (stateAt input n).char = true
      · rw [if_pos hl] at hrt
        obtain ⟨p, rfl⟩ := hn hl
        obtain ⟨q, h1, h2, h3, h4, h5, h6⟩ := readIdentifier_maximal_stateAt env input p hl
        rw [h4] at hrt
        simp only [Option.map_some', Option.some.injEq, Prod.mk.injEq] at hrt
        obtain ⟨ht, _⟩ := hrt
        subst ht
        obtain ⟨k1, k2, k3⟩ := ident_slice_props env input.toList p q _ h1 h3 h5
        exact ⟨k1, ⟨_, k2, hl⟩, k3⟩
      · rw [if_neg hl] at hrt
        simp only [Option.some.injEq, Prod.mk.injEq] at hrt
        obtain ⟨ht, _⟩ := hrt
        subst ht
        exact absurd htyp (by simp [MakeToken])

theorem identifier_maximal_munch_witness :
    ∃ q l1, (stateAt "ab-1.c" 1).position < q ∧ q ≤ "ab-1.c".toList.length
      ∧ "ab-1.c".toList[(stateAt "ab-1.c" 1).position]? = some (stateAt "ab-1.c" 1).char
      ∧ readIdentifier sampleEnv (stateAt "ab-1.c" 1)
          = some (String.mk (("ab-1.c".toList.drop (stateAt "ab-1.c" 1).position).take
              (q - (stateAt "ab-1.c" 1).position)), l1)
      ∧ l1.position = q ∧ l1.char = ("ab-1.c".toList[q]?).getD nul
      ∧ (∀ i, (stateAt "ab-1.c" 1).position ≤ i → i < q →
          ∃ c, "ab-1.c".toList[i]? = some c ∧ isIdentChar sampleEnv c = true)
      ∧ (∀ c, "ab-1.c".toList[q]? = some c → isIdentChar sampleEnv c = false) :=
  (identifier_maximal_munch sampleEnv "ab-1.c" (stateAt "ab-1.c" 1)
    (ReachableFrom.readNext ReachableFrom.start)).1 (by decide)

/-! ## Scanning up to the first sentinel -/

/-- One call of `NextToken`, with `0` not a key, in a state that has not passed
a state `stateAt input (i + 1)` whose character is the sentinel: the call does
not pass it either, it returns `EOF` and stays when the skip ends on the
sentinel, and it advances otherwise. -/
theorem NextToken_before_nul (env : Env) (input : String) (i : Nat)
    (hi : (stateAt input (i + 1)).char = nul) (h0 : env.tokenMap nul = none)
    (n : Nat) (hn : n ≤ i + 1) (tok : Token) (l1 : Lexer)
    (h : NextToken env (stateAt input n) = some (tok, l1)) :
    ∃ m q, skipWhitespace (stateAt input n) = stateAt input m ∧ l1 = stateAt input q
      ∧ n ≤ m ∧ 1 ≤ m ∧ m ≤ q ∧ q ≤ i + 1
      ∧ tok.Pos = startPos (stateAt input m)
      ∧ ((stateAt input m).char = nul →
          tok = { Typ := TokenType.EOF, Literal := "", Pos := startPos (stateAt input m) }
            ∧ q = m)
      ∧ ((stateAt input m).char ≠ nul → m + 1 ≤ q) := by
  obtain ⟨m, h1, h2, h3, _, h5, h6⟩ := skip_stateAt input n
  have hm : m ≤ i + 1 := by
    by_contra hgt
    have := h6 (i + 1) hn (by omega)
    rw [hi, isSpace_nul] at this
    exact absurd this (by decide)
  have hstep : (stateAt input m).char ≠ nul → m + 1 ≤ i + 1 := by
    intro hne
    by_contra hgt
    have e : m = i + 1 := by omega
    rw [e] at hne
    exact hne hi
  cases hk : env.tokenMap (skipWhitespace (stateAt input n)).char with
  | some t =>
    have hne : (stateAt input m).char ≠ nul := by
      intro e
      rw [h1, e, h0] at hk
      exact absurd hk (by simp)
    rw [NextToken_key env _ t hk, h1, ReadNext_stateAt] at h
    simp only [Option.some.injEq, Prod.mk.injEq] at h
    obtain ⟨ht, hl⟩ := h
    subst ht; subst hl
    exact ⟨m, m + 1, h1, rfl, h2, h3, by omega, hstep hne, rfl,
      fun e => absurd e hne, fun _ => le_refl _⟩
  | none =>
    by_cases hc : (skipWhitespace (stateAt input n)).char = nul
    · rw [NextToken_eof env _ hk hc, h1] at h
      simp only [Option.some.injEq, Prod.mk.injEq] at h
      obtain ⟨ht, hl⟩ := h
      subst ht; subst hl
      rw [h1] at hc
      exact ⟨m, m, h1, rfl, h2, h3, le_refl _, hm, rfl, fun _ => ⟨rfl, rfl⟩,
        fun hne => absurd hc hne⟩
    · have hne : (stateAt input m).char ≠ nul := by rw [h1] at hc; exact hc
      by_cases hl : isLetter env (skipWhitespace (stateAt input n)).char = true
      · have hl2 := hl
        rw [h1] at hl2
        obtain ⟨q, e, hq1, _, _, hq4⟩ := readIdentifier_stateAt env input m h3 hl2
        have hq : q ≤ i + 1 := by
          by_contra hgt
          have := hq4 (i + 1) (by have := hstep hne; omega) (by omega)
          rw [hi, isIdentChar_nul] at this
          exact absurd this (by decide)
        rw [NextToken_ident env _ hk hc hl, h1, e] at h
        simp only [Option.map_some', Option.some.injEq, Prod.mk.injEq] at h
        obtain ⟨ht, hl⟩ := h
        subst ht; subst hl
        exact ⟨m, q, h1, rfl, h2, h3, by omega, hq, rfl, fun e => absurd e hne,
          fun _ => by omega⟩
      · rw [NextToken_unknown env _ hk hc (by simpa using hl), h1, ReadNext_stateAt] at h
        simp only [Option.some.injEq, Prod.mk.injEq] at h
        obtain ⟨ht, hl⟩ := h
        subst ht; subst hl
        exact ⟨m, m + 1, h1, rfl, h2, h3, by omega, hstep hne, rfl,
          fun e => absurd e hne, fun _ => le_refl _⟩

/-- Scanning with `NextToken` only never passes the first state whose character
is the sentinel. -/
theorem lexerAfter_before_nul (env : Env) (input : String) (i : Nat)
    (hi : (stateAt input (i + 1)).char = nul) (h0 : env.tokenMap nul = none) (k : Nat) :
    ∃ n, lexerAfter env input k = some (stateAt input n) ∧ n ≤ i + 1 := by
  induction k with
  | zero => exact ⟨0, by rw [stateAt_zero]; rfl, by omega⟩
  | succ k ih =>
    obtain ⟨n, hn, hle⟩ := ih
    obtain ⟨tok, q, e, _⟩ := NextToken_stateAt env input n
    obtain ⟨m, q2, _, h2, _, _, _, h6, _⟩ := NextToken_before_nul env input i hi h0 n hle _ _ e
    exact ⟨q2, by rw [lexerAfter_succ_of env input k _ _ _ hn e, h2], h6⟩

/-- Once the skip ends on the sentinel, this call and every later one return the
same `EOF` token and leave the lexer on the sentinel. -/
theorem eof_from_then_on (env : Env) (input : String) (h0 : env.tokenMap nul = none)
    (k n m : Nat) (hk : lexerAfter env input k = some (stateAt input n))
    (hs : skipWhitespace (stateAt input n) = stateAt input m)
    (hc : (stateAt input m).char = nul) (j : Nat) (hj : k ≤ j) :
    nthToken env input j
        = some { Typ := TokenType.EOF, Literal := "", Pos := startPos (stateAt input m) }
      ∧ lexerAfter env input (j + 1) = some (stateAt input m) := by
  have hfirst := NextToken_eof env (stateAt input n) (by rw [hs, hc]; exact h0) (by rw [hs, hc])
  rw [hs] at hfirst
  have hfix := NextToken_at_nul env h0 (stateAt input m) hc
  have hafter : ∀ d, lexerAfter env input (k + 1 + d) = some (stateAt input m) := by
    intro d
    induction d with
    | zero => exact lexerAfter_succ_of env input k _ _ _ hk hfirst
    | succ d ih => exact lexerAfter_succ_of env input (k + 1 + d) _ _ _ ih hfix
  by_cases hjk : j = k
  · subst hjk
    exact ⟨by rw [nthToken_of_lexerAfter env input j _ hk, hfirst]; rfl, hafter 0⟩
  · obtain ⟨d, rfl⟩ : ∃ d, j = k + 1 + d := ⟨j - (k + 1), by omega⟩
    exact ⟨by rw [nthToken_of_lexerAfter env input _ _ (hafter d), hfix]; rfl, hafter (d + 1)⟩

/-- When no character before the index `i` is the sentinel, one of the first
`i + 1` calls ends its skip on the index `i`. -/
theorem reaches_first_nul (env : Env) (input : String) (i : Nat)
    (hi : (stateAt input (i + 1)).char = nul)
    (hfirst : ∀ j, j < i → (stateAt input (j + 1)).char ≠ nul)
    (h0 : env.tokenMap nul = none) :
    ∃ k n, k ≤ i ∧ lexerAfter env input k = some (stateAt input n)
      ∧ skipWhitespace (stateAt input n) = stateAt input (i + 1) := by
  have prog : ∀ k, (∀ k2 n2, k2 < k → lexerAfter env input k2 = some (stateAt input n2) →
        skipWhitespace (stateAt input n2) ≠ stateAt input (i + 1)) →
      ∃ n, lexerAfter env input k = some (stateAt input n) ∧ n ≤ i + 1
        ∧ (k = 0 ∨ k + 1 ≤ n) := by
    intro k
    induction k with
    | zero =>
      intro _
      exact ⟨0, by rw [stateAt_zero]; rfl, by omega, Or.inl rfl⟩
    | succ k ih =>
      intro hnot
      obtain ⟨n, hn, hle, hk⟩ := ih (fun k2 n2 h2 => hnot k2 n2 (by omega))
      obtain ⟨tok, q, e, _⟩ := NextToken_stateAt env input n
      obtain ⟨m, q2, h1, h2, h3, h4, h5, h6, _, _, h9⟩ :=
        NextToken_before_nul env input i hi h0 n hle _ _ e
      have hmne : m ≠ i + 1 := by
        intro e2
        rw [e2] at h1
        exact hnot k n (by omega) hn h1
      have hch : (stateAt input m).char ≠ nul := by
        obtain ⟨j, rfl⟩ : ∃ j, m = j + 1 := ⟨m - 1, by omega⟩
        exact hfirst j (by omega)
      have := h9 hch
      exact ⟨q2, by rw [lexerAfter_succ_of env input k _ _ _ hn e, h2], h6,
        Or.inr (by omega)⟩
  by_cases hex : ∃ k2 n2, k2 < i ∧ lexerAfter env input k2 = some (stateAt input n2)
      ∧ skipWhitespace (stateAt input n2) = stateAt input (i + 1)
  · obtain ⟨k2, n2, hk2, hl, hs⟩ := hex
    exact ⟨k2, n2, by omega, hl, hs⟩
  · obtain ⟨n, hn, hle, hk⟩ := prog i (fun k2 n2 h2 hl hs => hex ⟨k2, n2, h2, hl, hs⟩)
    refine ⟨i, n, le_refl _, hn, ?_⟩
    obtain ⟨m, h1, h2, h3, _, _, h6⟩ := skip_stateAt input n
    have hm : m ≤ i + 1 := by
      by_contra hgt
      have := h6 (i + 1) hle (by omega)
      rw [hi, isSpace_nul] at this
      exact absurd this (by decide)
    have e : m = i + 1 := by omega
    rw [h1, e]

/-- C17: when the input has the code point `0` at the index `i` and at no index
before it, and `0` is not a key of `tokenMap`, scanning with `NextToken` only
reaches the index `i` within the first `i + 1` calls; the call whose whitespace
skip ends on `i` returns `EOF` with the literal `""` and `Pos.Offset = i`, and so
does every later call; the cursor never passes `i`, and no token starts after
`i`. -/
theorem embedded_nul_is_end (env : Env) (input : String) (i : Nat)
    (hi : input.toList[i]? = some nul)
    (hfirst : ∀ j, j < i → input.toList[j]? ≠ some nul)
    (h0 : env.tokenMap nul = none) :
    (∃ k pos, k ≤ i ∧ pos.Offset = (i : Int) ∧ ∀ j, k ≤ j →
        nthToken env input j = some { Typ := TokenType.EOF, Literal := "", Pos := pos }
          ∧ ∃ l, lexerAfter env input (j + 1) = some l ∧ l.position = i)
      ∧ (∀ k, ∃ l, lexerAfter env input k = some l ∧ l.position ≤ i)
      ∧ (∀ k tok, nthToken env input k = some tok → tok.Pos.Offset ≤ i)
      ∧ (∀ k l tok l1, lexerAfter env input k = some l → NextToken env l = some (tok, l1) →
          (skipWhitespace l).position = i →
          tok.Typ = TokenType.EOF ∧ tok.Literal = "" ∧ tok.Pos.Offset = i
            ∧ l1.position = i) := by
  have hilt : i < input.toList.length := by
    by_contra hge
    rw [List.getElem?_eq_none (by omega)] at hi
    exact absurd hi (by simp)
  have hi2 : (stateAt input (i + 1)).char = nul := by
    rw [stateAt_char_getD, hi]; rfl
  have hfirst2 : ∀ j, j < i → (stateAt input (j + 1)).char ≠ nul := by
    intro j hj e
    have hjlt : j < input.toList.length := by omega
    rw [stateAt_char input j hjlt] at e
    apply hfirst j hj
    rw [List.getElem?_eq_getElem hjlt, e]
  have hpos : (stateAt input (i + 1)).position = i := rfl
  refine ⟨?_, ?_, ?_, ?_⟩
  · obtain ⟨k, n, hk, hl, hs⟩ := reaches_first_nul env input i hi2 hfirst2 h0
    refine ⟨k, startPos (stateAt input (i + 1)), hk, rfl, ?_⟩
    intro j hj
    obtain ⟨e1, e2⟩ := eof_from_then_on env input h0 k n (i + 1) hl hs hi2 j hj
    exact ⟨e1, _, e2, hpos⟩
  · intro k
    obtain ⟨n, hn, hle⟩ := lexerAfter_before_nul env input i hi2 h0 k
    refine ⟨_, hn, ?_⟩
    have : (stateAt input n).position = n - 1 := rfl
    omega
  · intro k tok ht
    obtain ⟨n, hn, hle⟩ := lexerAfter_before_nul env input i hi2 h0 k
    rw [nthToken_of_lexerAfter env input k _ hn] at ht
    cases hr : NextToken env (stateAt input n) with
    | none => rw [hr] at ht; simp at ht
    | some r =>
      obtain ⟨tok1, l1⟩ := r
      rw [hr] at ht
      simp only [Option.map_some', Option.some.injEq] at ht
      subst ht
      obtain ⟨m, q, _, _, _, _, h5, h6, h7, _, _⟩ :=
        NextToken_before_nul env input i hi2 h0 n hle _ _ hr
      rw [h7]
      have : (startPos (stateAt input m)).Offset = ((m - 1 : Nat) : Int) := rfl
      rw [this]
      omega
  · intro k l tok l1 hk hn hreach
    obtain ⟨n, hn2, hle⟩ := lexerAfter_before_nul env input i hi2 h0 k
    rw [hk] at hn2
    cases hn2
    obtain ⟨m, q, h1, h2, _, h4, _, _, h7, h8, _⟩ :=
      NextToken_before_nul env input i hi2 h0 n hle _ _ hn
    rw [h1] at hreach
    have hm : m = i + 1 := by
      have : (stateAt input m).position = m - 1 := rfl
      omega
    subst hm
    obtain ⟨e1, e2⟩ := h8 hi2
    subst e2
    subst h2
    rw [e1]
    exact ⟨rfl, rfl, rfl, rfl⟩

theorem embedded_nul_is_end_witness :
    (∃ k pos, k ≤ 1 ∧ pos.Offset = ((1 : Nat) : Int) ∧ ∀ j, k ≤ j →
        nthToken sampleEnv "a\x00b" j
            = some { Typ := TokenType.EOF, Literal := "", Pos := pos }
          ∧ ∃ l, lexerAfter sampleEnv "a\x00b" (j + 1) = some l ∧ l.position = 1)
      ∧ nthToken sampleEnv "a\x00b" 1
          = some { Typ := TokenType.EOF, Literal := "", Pos := ⟨1, 1, 2⟩ } :=
  ⟨(embedded_nul_is_end sampleEnv "a\x00b" 1 (by decide)
      (by intro j hj; interval_cases j; decide) (by decide)).1, by decide⟩

/-! ## The position of the end-of-input token -/

theorem stateAt_nul_is_end (input : String) (hnn : ∀ c ∈ input.toList, c ≠ nul) (q : Nat)
    (h1 : 1 ≤ q) (h2 : q ≤ input.toList.length + 1) (hc : (stateAt input q).char = nul) :
    q = input.toList.length + 1 := by
  by_contra hne
  exact hnn _ (stateAt_char_mem input q h1 (by omega)) hc

/-- C18: on an input without the code point `0`, scanned with `NextToken` only
and with `0` not a key of `tokenMap`, the token returned at the end of the input
has type `EOF`, the literal `""`, `Pos.Offset = len(input)`, `Pos.Line = 1 +` the
number of line feeds in the input, and `Pos.Column = len(input) - 1 - j` where
`j` is the index of the last line feed, or `len(input)` when there is none; one
of the first `len(input) + 1` calls returns it and so does every later call; and
when no key of `tokenMap` is mapped to `EOF` it is the only token of type `EOF`. -/
theorem eof_token_position (env : Env) (input : String)
    (hnn : ∀ c ∈ input.toList, c ≠ nul) (h0 : env.tokenMap nul = none) :
    ∃ pos : Position,
      pos.Offset = (input.toList.length : Int)
        ∧ pos.Line = 1 + ((input.toList.count '\n' : Nat) : Int)
        ∧ (∀ j, j < input.toList.length → input.toList[j]? = some '\n' →
            (∀ i, j < i → i < input.toList.length → input.toList[i]? ≠ some '\n') →
            pos.Column = (input.toList.length : Int) - 1 - j)
        ∧ ((∀ i, i < input.toList.length → input.toList[i]? ≠ some '\n') →
            pos.Column = (input.toList.length : Int))
        ∧ (∃ k, k ≤ input.toList.length ∧ ∀ j, k ≤ j →
            nthToken env input j = some { Typ := TokenType.EOF, Literal := "", Pos := pos })
        ∧ (∀ k l tok l1, lexerAfter env input k = some l → NextToken env l = some (tok, l1) →
            (skipWhitespace l).char = nul →
            tok = { Typ := TokenType.EOF, Literal := "", Pos := pos })
        ∧ ((∀ c, env.tokenMap c ≠ some TokenType.EOF) →
            ∀ k tok, nthToken env input k = some tok → tok.Typ = TokenType.EOF →
              tok = { Typ := TokenType.EOF, Literal := "", Pos := pos }) := by
  have hi2 : (stateAt input (input.toList.length + 1)).char = nul :=
    stateAt_char_end input _ (le_refl _)
  have hfirst2 : ∀ j, j < input.toList.length → (stateAt input (j + 1)).char ≠ nul :=
    fun j hj => hnn _ (stateAt_char_mem input (j + 1) (by omega) (by omega))
  have htk1 : input.toList.take (input.toList.length + 1) = input.toList :=
    List.take_of_length_le (by omega)
  have htk : input.toList.take input.toList.length = input.toList := List.take_length _
  have hcol := colAfter_take input.toList input.toList.length (le_refl _)
  rw [htk] at hcol
  refine ⟨startPos (stateAt input (input.toList.length + 1)), rfl, ?_, ?_, ?_, ?_, ?_, ?_⟩
  · simp only [startPos, stateAt, htk1]; rfl
  · intro j hj hlf hno
    simp only [startPos, stateAt, htk1]
    rw [hcol.1 j hj hlf hno]; omega
  · intro hno
    simp only [startPos, stateAt, htk1]
    rw [hcol.2 hno]; omega
  · obtain ⟨k, n, hk, hl, hs⟩ := reaches_first_nul env input _ hi2 hfirst2 h0
    exact ⟨k, hk, fun j hj => (eof_from_then_on env input h0 k n _ hl hs hi2 j hj).1⟩
  · intro k l tok l1 hk hn hc
    obtain ⟨n, hn2, hle⟩ := lexerAfter_before_nul env input _ hi2 h0 k
    rw [hk] at hn2
    cases hn2
    obtain ⟨m, q, h1, _, _, h4, h5, h6, _, h8, _⟩ :=
      NextToken_before_nul env input _ hi2 h0 n hle _ _ hn
    rw [h1] at hc
    have hm := stateAt_nul_is_end input hnn m h4 (by omega) hc
    subst hm
    exact (h8 hc).1
  · intro hE k tok ht htyp
    obtain ⟨n, hn, hle⟩ := lexerAfter_before_nul env input _ hi2 h0 k
    rw [nthToken_of_lexerAfter env input k _ hn] at ht
    cases hr : NextToken env (stateAt input n) with
    | none => rw [hr] at ht; simp at ht
    | some r =>
      obtain ⟨tok1, l1⟩ := r
      rw [hr] at ht
      simp only [Option.map_some', Option.some.injEq] at ht
      subst ht
      obtain ⟨hc, htok⟩ := NextToken_typ_eof env hE _ _ _ hr htyp
      obtain ⟨m, q, _, h2, _, h4, h5, h6, _, _, _⟩ :=
        NextToken_before_nul env input _ hi2 h0 n hle _ _ hr
      subst h2
      have hq := stateAt_nul_is_end input hnn q (by omega) h6 hc
      subst hq
      exact htok

theorem eof_token_position_witness :
    nthToken sampleEnv "ab\ncd" 2
        = some { Typ := TokenType.EOF, Literal := "", Pos := ⟨5, 2, 2⟩ }
      ∧ ∃ pos : Position, pos.Offset = (("ab\ncd".toList.length : Nat) : Int)
          ∧ pos.Column = (("ab\ncd".toList.length : Nat) : Int) - 1 - (2 : Nat)
          ∧ ∃ k, k ≤ "ab\ncd".toList.length ∧ ∀ j, k ≤ j →
              nthToken sampleEnv "ab\ncd" j
                = some { Typ := TokenType.EOF, Literal := "", Pos := pos } := by
  obtain ⟨pos, h1, _, h3, _, h5, _⟩ :=
    eof_token_position sampleEnv "ab\ncd" (by decide) (by decide)
  exact ⟨by decide, pos, h1,
    h3 2 (by decide) (by decide)
      (by intro i h1 h2; have h3 : i < 5 := h2; interval_cases i <;> decide), h5⟩

/-! ## After an unknown token -/

/-- C19 (amended): when `NextToken` takes the unknown path on the character at
the index `p` (not a key of `tokenMap`, not the sentinel, not a letter) and
`input[p + 1]` exists and is no white space, the `UNKNOWN` token has
`Pos.Offset = p` and the literal `input[p + 1]`, the cursor is left on the index
`p + 1`, and the next `NextToken` starts on that same character without skipping:
it returns a token with `Pos.Offset = p + 1`, whose literal starts with that
character when the character is a key of `tokenMap` or a letter. -/
theorem unknown_char_tokenized_again (env : Env) (input : String) (l : Lexer)
    (hr : Reachable env input l)
    (hkey : env.tokenMap (skipWhitespace l).char = none)
    (hc : (skipWhitespace l).char ≠ nul)
    (hl : isLetter env (skipWhitespace l).char = false)
    (c : Char) (hnext : input.toList[(skipWhitespace l).position + 1]? = some c)
    (hns : isSpace c = false) :
    ∃ tok l1 tok2 l2, NextToken env l = some (tok, l1)
      ∧ tok.Typ = TokenType.UNKNOWN ∧ tok.Pos.Offset = ((skipWhitespace l).position : Int)
      ∧ tok.Literal = String.singleton c
      ∧ l1.position = (skipWhitespace l).position + 1 ∧ l1.char = c
      ∧ skipWhitespace l1 = l1
      ∧ NextToken env l1 = some (tok2, l2)
      ∧ tok2.Pos.Offset = ((skipWhitespace l).position : Int) + 1
      ∧ ((env.tokenMap c ≠ none ∨ isLetter env c = true) →
          tok2.Literal.toList.head? = some c) := by
  obtain ⟨n, rfl⟩ := Reachable_stateAt env input l hr
  obtain ⟨m, h1, _, h3, _, _, _⟩ := skip_stateAt input n
  have hn := NextToken_unknown env _ hkey hc hl
  rw [h1] at hnext hn ⊢
  rw [ReadNext_stateAt] at hn
  obtain ⟨j, rfl⟩ : ∃ j, m = j + 1 := ⟨m - 1, by omega⟩
  have hpos : (stateAt input (j + 1)).position = j := rfl
  rw [hpos] at hnext ⊢
  have hch : (stateAt input (j + 1 + 1)).char = c := by
    rw [stateAt_char_getD, hnext]; rfl
  have hskip : skipWhitespace (stateAt input (j + 1 + 1)) = stateAt input (j + 1 + 1) :=
    run_stop isSpace isSpace_nul _ (by rw [hch]; exact hns)
  obtain ⟨tok2, q, e2, _⟩ := NextToken_stateAt env input (j + 1 + 1)
  obtain ⟨m2, _, hm2, _, _, _, _, _, h7, _, _⟩ := NextToken_from_stateAt env input _ _ _ e2
  have hm2eq : m2 = j + 1 + 1 := by
    rw [hskip] at hm2
    have := congrArg Lexer.readPosition hm2
    exact this.symm
  subst hm2eq
  refine ⟨_, _, tok2, _, hn, rfl, rfl, by rw [hch], rfl, hch, hskip, e2, ?_, ?_⟩
  · rw [h7]
    have : (startPos (stateAt input (j + 1 + 1))).Offset = ((j + 1 + 1 - 1 : Nat) : Int) := rfl
    rw [this]; omega
  · intro hcase
    cases hk : env.tokenMap c with
    | some t =>
      have e3 := NextToken_key env (stateAt input (j + 1 + 1)) t (by rw [hskip, hch]; exact hk)
      rw [e2, hskip, hch] at e3
      simp only [Option.some.injEq, Prod.mk.injEq] at e3
      rw [e3.1]
      rfl
    | none =>
      have hlet : isLetter env c = true := by
        rcases hcase with h | h
        · exact absurd hk h
        · exact h
      have hcn : c ≠ nul := by
        intro e; rw [e, isLetter_nul] at hlet; exact absurd hlet (by decide)
      have e3 := NextToken_ident env (stateAt input (j + 1 + 1))
        (by rw [hskip, hch]; exact hk) (by rw [hskip, hch]; exact hcn)
        (by rw [hskip, hch]; exact hlet)
      obtain ⟨q2, k1, _, k3, k4, k5, _⟩ :=
        readIdentifier_maximal_stateAt env input (j + 1) (by rw [hch]; exact hlet)
      rw [e2, hskip, k4] at e3
      simp only [Option.map_some', Option.some.injEq, Prod.mk.injEq] at e3
      rw [e3.1]
      rw [hch] at k3
      exact (ident_slice_props env input.toList (j + 1) q2 c k1 k3 k5).2.1

theorem unknown_char_tokenized_again_witness :
    ∃ tok l1 tok2 l2, NextToken sampleEnv (NewLexer "1a") = some (tok, l1)
      ∧ tok.Typ = TokenType.UNKNOWN
      ∧ tok.Pos.Offset = ((skipWhitespace (NewLexer "1a")).position : Int)
      ∧ tok.Literal = String.singleton 'a'
      ∧ l1.position = (skipWhitespace (NewLexer "1a")).position + 1 ∧ l1.char = 'a'
      ∧ skipWhitespace l1 = l1
      ∧ NextToken sampleEnv l1 = some (tok2, l2)
      ∧ tok2.Pos.Offset = ((skipWhitespace (NewLexer "1a")).position : Int) + 1
      ∧ ((sampleEnv.tokenMap 'a' ≠ none ∨ isLetter sampleEnv 'a' = true) →
          tok2.Literal.toList.head? = some 'a') :=
  unknown_char_tokenized_again sampleEnv "1a" (NewLexer "1a") ReachableFrom.start
    (by decide) (by decide) (by decide) 'a' (by decide) (by decide)

/-- C19 as stated fails in two ways.  With a table that maps `.` to `UNKNOWN`, on
`".a"` the first call returns `UNKNOWN "."` at offset 0 through the table, and the
next token `IDENT "a"` does not start with the character that literal reported.
With neither digit a key, on `"12"` the first call returns `UNKNOWN "2"` at offset
0 and the next call, at offset 1, returns `UNKNOWN` with the sentinel as literal,
which does not start with `2`. -/
theorem unknown_char_tokenized_again_counterexample :
    nthToken unknownKeyEnv ".a" 0
        = some { Typ := TokenType.UNKNOWN, Literal := ".", Pos := ⟨0, 1, 1⟩ }
      ∧ nthToken unknownKeyEnv ".a" 1
        = some { Typ := TokenType.IDENT, Literal := "a", Pos := ⟨1, 1, 2⟩ }
      ∧ ¬ UnknownCharTokenizedAgain unknownKeyEnv ".a"
      ∧ nthToken sampleEnv "12" 1
        = some { Typ := TokenType.UNKNOWN, Literal := String.singleton nul, Pos := ⟨1, 1, 2⟩ }
      ∧ ¬ UnknownCharTokenizedAgain sampleEnv "12" := by
  refine ⟨by decide, by decide, ?_, by decide, ?_⟩
  · intro h
    have h1 := (h 0 0 { Typ := TokenType.UNKNOWN, Literal := ".", Pos := ⟨0, 1, 1⟩ } 'a'
      (by decide) rfl rfl (by decide) (by decide)).1
    exact absurd h1 (by decide)
  · intro h
    obtain ⟨_, tok2, h2, _, h4⟩ :=
      h 0 0 { Typ := TokenType.UNKNOWN, Literal := "2", Pos := ⟨0, 1, 1⟩ } '2'
        (by decide) rfl rfl (by decide) (by decide)
    have e : nthToken sampleEnv "12" 1
        = some { Typ := TokenType.UNKNOWN, Literal := String.singleton nul,
                 Pos := ⟨1, 1, 2⟩ } := by decide
    rw [e] at h2
    cases h2
    exact absurd h4 (by decide)

/-! ## Index safety -/

/-- In a reachable state `NextToken` returns (no index and no slice of the input
is out of range), the slice `input[start:position]` of `readIdentifier` has
`start ≤ position ≤ len(input)`, and `Peek` and `PeekN(n)` with `n ≥ 0` return as
long as `readPosition + n` is in the range of `int`. -/
theorem index_safety (env : Env) (input : String) (l : Lexer) (hr : Reachable env input l) :
    (∃ tok l1, NextToken env l = some (tok, l1))
      ∧ (isLetter env (skipWhitespace l).char = true →
          (skipWhitespace l).position ≤ (run (isIdentChar env) (skipWhitespace l)).position
            ∧ (run (isIdentChar env) (skipWhitespace l)).position ≤ input.toList.length
            ∧ ∃ r, readIdentifier env (skipWhitespace l) = some r)
      ∧ ((l.readPosition : Int) ≤ maxInt → ∃ c, Peek l = some (c, l))
      ∧ (∀ n : Int, 0 ≤ n → (l.readPosition : Int) + n ≤ maxInt →
          ∃ c, PeekN l n = some (c, l)) := by
  obtain ⟨n, rfl⟩ := Reachable_stateAt env input l hr
  have one : ∀ i : Int, 0 ≤ i → ((stateAt input n).readPosition : Int) + i ≤ maxInt →
      ∃ c, PeekN (stateAt input n) i = some (c, stateAt input n) := by
    intro i hi hm
    obtain ⟨k, rfl⟩ : ∃ k : Nat, i = (k : Int) := ⟨i.toNat, by omega⟩
    exact ⟨_, PeekN_nonneg _ k hm⟩
  refine ⟨?_, ?_, fun h => one 0 (le_refl 0) (by omega), one⟩
  · obtain ⟨tok, q, e, _⟩ := NextToken_stateAt env input n
    exact ⟨tok, _, e⟩
  · intro hl
    obtain ⟨m, h1, _, h3, _, _, _⟩ := skip_stateAt input n
    rw [h1] at hl ⊢
    obtain ⟨j, rfl⟩ : ∃ j, m = j + 1 := ⟨m - 1, by omega⟩
    obtain ⟨q, k1, k2, _, k4, _, _⟩ := readIdentifier_maximal_stateAt env input j hl
    have hrun : run (isIdentChar env) (stateAt input (j + 1)) = stateAt input (q + 1) := by
      have e := k4
      unfold readIdentifier at e
      simp only at e
      cases hs : sliceString (run (isIdentChar env) (stateAt input (j + 1))).input
          (stateAt input (j + 1)).position
          (run (isIdentChar env) (stateAt input (j + 1))).position with
      | none => rw [hs] at e; exact absurd e (by simp)
      | some x =>
        rw [hs] at e
        simp only [Option.map_some', Option.some.injEq, Prod.mk.injEq] at e
        exact e.2
    rw [hrun]
    have hp1 : (stateAt input (j + 1)).position = j := rfl
    have hp2 : (stateAt input (q + 1)).position = q := rfl
    rw [hp1, hp2]
    exact ⟨by omega, k2, _, k4⟩

/-- C16: no operation is to index the input out of range in a state reached by
`ReadNext`, `NextToken`, `Peek` and `PeekN(n)` with `n ≥ 0`.  After one
`NextToken` on `"a.b"` (`readPosition = 2`) the call `PeekN(MaxInt)` does: the
`int` sum `readPosition + n` wraps around to a negative value, which passes the
comparison with `len(input)` and is used as index. -/
theorem index_out_of_range_by_overflow :
    lexerAfter sampleEnv "a.b" 1 = some (stateAt "a.b" 2)
      ∧ (stateAt "a.b" 2).readPosition = 2 ∧ 0 ≤ maxInt
      ∧ wrapInt (((stateAt "a.b" 2).readPosition : Int) + maxInt) < 0
      ∧ PeekN (stateAt "a.b" 2) maxInt = none := by
  decide

end Path
